import Mathlib

/-!
Verification of the frame-group inference algorithm of
`genLightParamDescriptions.py` (luxtest repository).

The development shallowly embeds the grouping core:

* Python values reaching the comparison helpers are modelled by `PyVal`:
  ints, floats (as rationals, since the comparisons at issue are exact
  relative-tolerance formulas), bools, strings, `None`, lists, and the
  `pxr.Gf` vector/matrix values that can appear as resolved defaults.
  Python dicts do not occur as light-attribute values in this pipeline
  (USD attribute values are scalars, strings or nested sequences), and
  the `dict` branch of `vals_close` is dead code even in the source:
  `_standardize_val_for_comparison` turns any dict into the list of its
  keys before that branch can be reached, so the dict case is not
  modelled.
* Frames are modelled as integers: `LightParamDescription.from_light_prim`
  always drives the finder with `range(start, end + 1)`.
* Fallible Python code (exceptions) is modelled with `Except PyErr`.
  Error messages are kept as abbreviated static strings (the source
  interpolates values into them); the exception class is preserved.
* `Usd.Attribute` is external to the repository; it is abstracted as a
  name, a per-frame value accessor (the value `attr.Get(frame)` before
  `to_json_val`), and the resolved schema fallback used by
  `get_fallback` when the attribute name has no entry in
  `luxtest_const.DEFAULT_OVERRIDES` (the `HasFallbackValue` /
  prim-definition lookup and the type-appropriate zero construction are
  USD calls collapsed into that one field).
* Python dicts used by the algorithm (`frame_vals`, `varying`, caches)
  are modelled as insertion-ordered association lists, matching dict
  iteration order; `sorted(...)` is modelled by `List.insertionSort`.
-/

/-- Python exception classes raised by the modelled code. -/
inductive PyErr where
  | valueError (msg : String)
  | typeError (msg : String)
  | keyError (msg : String)
  | runtimeError (msg : String)
  | indexError
deriving DecidableEq, Repr

/-- Python values as they reach `vals_close`, comparison operators and the
grouping data structures (see the module comment for the modelling of
floats, dicts and `Gf` types). -/
inductive PyVal where
  | vnone
  | vbool (b : Bool)
  | vint (n : Int)
  | vfloat (q : Rat)
  | vstr (s : String)
  | vlist (elems : List PyVal)
  | vvec (comps : List Rat)
  | vmatrix (rows : List (List Rat))

mutual

/-- Size measure used for termination of the recursive value comparisons. -/
def psize : PyVal → Nat
  | .vlist l => 1 + plsize l
  | .vvec c => 2 + c.length
  | .vmatrix r => 2 + (r.map List.length).sum
  | _ => 1

/-- Sum of `psize` over a list of values. -/
def plsize : List PyVal → Nat
  | [] => 0
  | x :: xs => psize x + plsize xs

end

theorem psize_pos (v : PyVal) : 1 ≤ psize v := by
  cases v <;> simp [psize] <;> omega

theorem plsize_eq_sum (l : List PyVal) : plsize l = (l.map psize).sum := by
  induction l with
  | nil => simp [plsize]
  | cons x xs ih => simp [plsize, ih]

mutual

/-- Boolean structural equality on `PyVal`, used to build decidable
equality (the `deriving` handler does not support this nested inductive). -/
def pyValBEq : PyVal → PyVal → Bool
  | .vnone, .vnone => true
  | .vbool b1, .vbool b2 => b1 == b2
  | .vint n1, .vint n2 => n1 == n2
  | .vfloat q1, .vfloat q2 => q1 == q2
  | .vstr s1, .vstr s2 => s1 == s2
  | .vlist l1, .vlist l2 => pyValListBEq l1 l2
  | .vvec c1, .vvec c2 => c1 == c2
  | .vmatrix r1, .vmatrix r2 => r1 == r2
  | _, _ => false

/-- Boolean structural equality on lists of `PyVal`. -/
def pyValListBEq : List PyVal → List PyVal → Bool
  | [], [] => true
  | x :: xs, y :: ys => pyValBEq x y && pyValListBEq xs ys
  | _, _ => false

end

theorem pyValBEq_iff : ∀ a b : PyVal, pyValBEq a b = true ↔ a = b := by
  have main : ∀ n, (∀ a b : PyVal, psize a ≤ n → (pyValBEq a b = true ↔ a = b)) ∧
      (∀ l1 l2 : List PyVal, plsize l1 ≤ n → (pyValListBEq l1 l2 = true ↔ l1 = l2)) := by
    intro n
    induction n with
    | zero =>
      constructor
      · intro a _ h; have := psize_pos a; omega
      · intro l1 l2 h
        cases l1 with
        | nil => cases l2 <;> simp [pyValListBEq]
        | cons x xs => simp only [plsize] at h; have := psize_pos x; omega
    | succ n ih =>
      have Pn1 : ∀ a b : PyVal, psize a ≤ n + 1 → (pyValBEq a b = true ↔ a = b) := by
        intro a b ha
        cases a <;> cases b <;>
          simp only [pyValBEq, beq_iff_eq, PyVal.vbool.injEq, PyVal.vint.injEq,
            PyVal.vfloat.injEq, PyVal.vstr.injEq, PyVal.vlist.injEq,
            PyVal.vvec.injEq, PyVal.vmatrix.injEq] <;>
          try simp
        case vlist.vlist l1 l2 =>
          simp only [psize] at ha
          exact ih.2 l1 l2 (by omega)
      refine ⟨Pn1, ?_⟩
      intro l1
      induction l1 with
      | nil => intro l2 _; cases l2 <;> simp [pyValListBEq]
      | cons x xs ihl =>
        intro l2 hl
        cases l2 with
        | nil => simp [pyValListBEq]
        | cons y ys =>
          simp only [plsize] at hl
          have hx := psize_pos x
          simp only [pyValListBEq, Bool.and_eq_true, List.cons.injEq]
          rw [Pn1 x y (by omega), ihl ys (by omega)]
  intro a b
  exact (main (psize a)).1 a b (le_refl _)

instance : DecidableEq PyVal := fun a b =>
  decidable_of_iff (pyValBEq a b = true) (pyValBEq_iff a b)

/-- Model of `_standardize_val_for_comparison`: `Matrix*` values flatten to a
plain list of float components, `Vec*` values become a list of floats,
strings are kept, any other iterable (here: lists) is already a list, and
scalars are returned unchanged. -/
def stdVal : PyVal → PyVal
  | .vvec c => .vlist (c.map PyVal.vfloat)
  | .vmatrix rows => .vlist (rows.flatten.map PyVal.vfloat)
  | v => v

/-- Whether a value is a Python `float` (`isinstance(val, float)`). -/
def PyVal.isFloat : PyVal → Bool
  | .vfloat _ => true
  | _ => false

/-- Numeric reading of a value, for contexts (such as `math.isclose` and
the comparison operators) where Python accepts any real number: `bool` is
an `int` subclass, so it counts. -/
def PyVal.asReal : PyVal → Option Rat
  | .vbool b => some (if b then 1 else 0)
  | .vint n => some (n : Rat)
  | .vfloat q => some q
  | _ => none

/-- Python type name of a value, for the `type(val1) != type(val2)` test. -/
def PyVal.typeName : PyVal → String
  | .vnone => "NoneType"
  | .vbool _ => "bool"
  | .vint _ => "int"
  | .vfloat _ => "float"
  | .vstr _ => "str"
  | .vlist _ => "list"
  | .vvec _ => "Vec"
  | .vmatrix _ => "Matrix"

/-- Default relative tolerance of `math.isclose`. -/
def relTol : Rat := 1 / 1000000000

/-- Model of `math.isclose(a, b)` with the default tolerances
(`rel_tol=1e-9`, `abs_tol=0.0`): `abs(a-b) <= max(rel_tol * max(abs(a),
abs(b)), abs_tol)`. -/
def isclose (a b : Rat) : Bool :=
  decide (|a - b| ≤ max (relTol * max |a| |b|) 0)

theorem plsize_map_vfloat (c : List Rat) :
    plsize (c.map PyVal.vfloat) = c.length := by
  induction c with
  | nil => simp [plsize]
  | cons q qs ih => simp [plsize, psize, ih]; omega

theorem psize_stdVal_le (v : PyVal) : psize (stdVal v) ≤ psize v := by
  cases v with
  | vvec c =>
    simp only [stdVal, psize, plsize_map_vfloat]
    omega
  | vmatrix rows =>
    simp only [stdVal, psize, plsize_map_vfloat, List.length_flatten]
    omega
  | vlist l => simp [stdVal]
  | vnone => simp [stdVal]
  | vbool b => simp [stdVal]
  | vint n => simp [stdVal]
  | vfloat q => simp [stdVal]
  | vstr s => simp [stdVal]

theorem plsize_le_of_stdVal_eq_vlist {v : PyVal} {l : List PyVal}
    (h : stdVal v = .vlist l) : 1 + plsize l ≤ psize v := by
  have := psize_stdVal_le v
  rw [h] at this
  simpa [psize] using this

mutual

/-- Reference model of `vals_close(val1, val2)` by well-founded recursion:
standardize both values, then compare with float tolerance, type
identity, elementwise list recursion, or plain equality.  A `float`
against a non-real value raises `TypeError` inside `math.isclose` (the
source calls it whenever either side is a float).  The executable
`vals_close` below is proved equal to this reference
(`vals_close_eq_rec`). -/
def vals_close_rec (val1 val2 : PyVal) : Except PyErr Bool :=
  vals_close_rec_std (stdVal val1) (stdVal val2)
termination_by 2 * (psize val1 + psize val2) + 2
decreasing_by
  have h1 := psize_stdVal_le val1
  have h2 := psize_stdVal_le val2
  omega

/-- Body of `vals_close_rec` after `_standardize_val_for_comparison` has
been applied to both arguments. -/
def vals_close_rec_std (v1 v2 : PyVal) : Except PyErr Bool :=
  if v1.isFloat || v2.isFloat then
    match v1.asReal, v2.asReal with
    | some a, some b => .ok (isclose a b)
    | _, _ => .error (.typeError "must be real number")
  else if v1.typeName ≠ v2.typeName then .ok false
  else
    match v1, v2 with
    | .vlist l1, .vlist l2 =>
      if l1.length ≠ l2.length then .ok false else vals_close_rec_list l1 l2
    | w1, w2 => .ok (decide (w1 = w2))
termination_by 2 * (psize v1 + psize v2) + 1
decreasing_by
  simp only [psize]
  omega

/-- Reference model of `all(vals_close(v1, v2) for v1, v2 in
zip(val1, val2))`: stops at the first non-close pair or the first raising
comparison. -/
def vals_close_rec_list : List PyVal → List PyVal → Except PyErr Bool
  | x :: xs, y :: ys => do
    let c ← vals_close_rec x y
    if c then vals_close_rec_list xs ys else .ok false
  | _, _ => .ok true
termination_by l1 l2 => 2 * (plsize l1 + plsize l2) + 3
decreasing_by
  · simp only [plsize]
    omega
  · have hx := psize_pos x
    have hy := psize_pos y
    simp only [plsize]
    omega

end

mutual

/-- Fuel-indexed engine behind the executable `vals_close`: structurally
recursive on the fuel, so that it evaluates by kernel reduction.  Every
entry point is called with provably sufficient fuel, making the
fuel-exhausted arm unreachable (`vals_close_eq_rec`); it is labelled with
Python's own `RecursionError` for definiteness. -/
def vals_closeF : Nat → PyVal → PyVal → Except PyErr Bool
  | 0, _, _ => .error (.runtimeError "RecursionError")
  | fuel + 1, val1, val2 => vals_close_stdF fuel (stdVal val1) (stdVal val2)

/-- Fuel-indexed body of `vals_close` after standardization. -/
def vals_close_stdF : Nat → PyVal → PyVal → Except PyErr Bool
  | 0, _, _ => .error (.runtimeError "RecursionError")
  | fuel + 1, v1, v2 =>
    if v1.isFloat || v2.isFloat then
      match v1.asReal, v2.asReal with
      | some a, some b => .ok (isclose a b)
      | _, _ => .error (.typeError "must be real number")
    else if v1.typeName ≠ v2.typeName then .ok false
    else
      match v1, v2 with
      | .vlist l1, .vlist l2 =>
        if l1.length ≠ l2.length then .ok false else vals_close_listF fuel l1 l2
      | w1, w2 => .ok (decide (w1 = w2))

/-- Fuel-indexed elementwise closeness of two lists. -/
def vals_close_listF : Nat → List PyVal → List PyVal → Except PyErr Bool
  | 0, _, _ => .error (.runtimeError "RecursionError")
  | fuel + 1, x :: xs, y :: ys => do
    let c ← vals_closeF fuel x y
    if c then vals_close_listF fuel xs ys else .ok false
  | _ + 1, _, _ => .ok true

end

/-- Model of `vals_close(val1, val2)` as used by the grouping code: the
fuel-indexed engine run with sufficient fuel; `vals_close_eq_rec` proves
it equal to the direct well-founded reference `vals_close_rec`. -/
def vals_close (v1 v2 : PyVal) : Except PyErr Bool :=
  vals_closeF (2 * (psize v1 + psize v2) + 2) v1 v2

theorem vals_close_fuel_sound : ∀ fuel : Nat,
    (∀ v1 v2 : PyVal, 2 * (psize v1 + psize v2) + 2 ≤ fuel + 1 →
      vals_closeF (fuel + 1) v1 v2 = vals_close_rec v1 v2) ∧
    (∀ v1 v2 : PyVal, 2 * (psize v1 + psize v2) + 1 ≤ fuel + 1 →
      vals_close_stdF (fuel + 1) v1 v2 = vals_close_rec_std v1 v2) ∧
    (∀ l1 l2 : List PyVal, 2 * (plsize l1 + plsize l2) + 3 ≤ fuel + 1 →
      vals_close_listF (fuel + 1) l1 l2 = vals_close_rec_list l1 l2) := by
  intro fuel
  induction fuel with
  | zero =>
    refine ⟨?_, ?_, ?_⟩
    · intro v1 v2 h
      have := psize_pos v1
      omega
    · intro v1 v2 h
      have := psize_pos v1
      omega
    · intro l1 l2 h
      omega
  | succ fuel ih =>
    obtain ⟨ihP, ihQ, ihR⟩ := ih
    have hstep : ∀ v1 v2 : PyVal, 2 * (psize v1 + psize v2) + 2 ≤ fuel + 2 →
        vals_closeF (fuel + 2) v1 v2 = vals_close_rec v1 v2 := by
      intro v1 v2 h
      rw [vals_closeF]
      rw [show vals_close_rec v1 v2 = vals_close_rec_std (stdVal v1) (stdVal v2) from by
        rw [vals_close_rec]]
      apply ihQ
      have h1 := psize_stdVal_le v1
      have h2 := psize_stdVal_le v2
      omega
    refine ⟨hstep, ?_, ?_⟩
    · intro v1 v2 h
      cases v1 <;> cases v2 <;>
        simp +decide only [vals_close_stdF, vals_close_rec_std, PyVal.isFloat,
          PyVal.typeName, PyVal.asReal, Bool.false_or, Bool.or_false, Bool.or_self,
          Bool.false_eq_true, if_false, if_true, ne_eq]
      case vlist.vlist l1 l2 =>
        simp only [psize] at h
        by_cases hl : l1.length = l2.length
        · rw [if_neg (not_not_intro hl), if_neg (not_not_intro hl)]
          exact ihR l1 l2 (by omega)
        · rw [if_pos hl, if_pos hl]
    · intro l1 l2 h
      cases l1 with
      | nil => simp [vals_close_listF, vals_close_rec_list]
      | cons x xs =>
        cases l2 with
        | nil => simp [vals_close_listF, vals_close_rec_list]
        | cons y ys =>
          rw [vals_close_listF, vals_close_rec_list]
          simp only [plsize] at h
          have hx := psize_pos x
          have hy := psize_pos y
          rw [ihP x y (by omega)]
          cases hxy : vals_close_rec x y with
          | error e => rfl
          | ok b =>
            cases b with
            | false => rfl
            | true =>
              show vals_close_listF (fuel + 1) xs ys = vals_close_rec_list xs ys
              exact ihR xs ys (by omega)

/-- The executable `vals_close` agrees with the well-founded reference. -/
theorem vals_close_eq_rec (v1 v2 : PyVal) :
    vals_close v1 v2 = vals_close_rec v1 v2 := by
  rw [vals_close]
  have h := (vals_close_fuel_sound (2 * (psize v1 + psize v2) + 1)).1
  exact h v1 v2 (by omega)

mutual

/-- Model of the Python equality `a == b` on the value universe: numeric
values compare by value across `bool`/`int`/`float`, other builtins use
structural equality, and values of unrelated types are unequal (Python
`==` on builtins never raises). -/
def pyEq (v1 v2 : PyVal) : Bool :=
  match v1.asReal, v2.asReal with
  | some a, some b => decide (a = b)
  | _, _ =>
    match v1, v2 with
    | .vstr s1, .vstr s2 => decide (s1 = s2)
    | .vnone, .vnone => true
    | .vlist l1, .vlist l2 => pyEqList l1 l2
    | .vvec c1, .vvec c2 => decide (c1 = c2)
    | .vmatrix r1, .vmatrix r2 => decide (r1 = r2)
    | _, _ => false

/-- Elementwise Python equality of two lists (equal lengths required). -/
def pyEqList : List PyVal → List PyVal → Bool
  | [], [] => true
  | x :: xs, y :: ys => pyEq x y && pyEqList xs ys
  | _, _ => false

end

mutual

/-- Model of the Python comparison `v1 > v2` as used by
`find_varying_vals` on raw frame values (which have passed through
`to_json_val`, so `Gf` values cannot occur there): numeric values compare
by value, strings lexicographically by code point, lists lexicographically
with Python sequence semantics, and any other combination raises
`TypeError` (as for `None`, dicts, or mixed types). -/
def pyGT (v1 v2 : PyVal) : Except PyErr Bool :=
  match v1.asReal, v2.asReal with
  | some a, some b => .ok (decide (b < a))
  | _, _ =>
    match v1, v2 with
    | .vstr s1, .vstr s2 => .ok (decide (s2 < s1))
    | .vlist l1, .vlist l2 => pyGTList l1 l2
    | _, _ => .error (.typeError "unsupported operand types for comparison")

/-- Python list comparison: find the first index where elements differ
(under `==`) and compare those elements; if one list is a prefix of the
other, the longer list is greater. -/
def pyGTList : List PyVal → List PyVal → Except PyErr Bool
  | x :: xs, y :: ys => if pyEq x y then pyGTList xs ys else pyGT x y
  | l1, l2 => .ok (decide (l2.length < l1.length))

end

mutual

/-- Model of `to_json_val`: scalars (including `bool`, an `int` subclass)
are returned unchanged, `Sdf.AssetPath` is already modelled as a string,
and iterables are converted recursively to lists (`Gf` vectors become
lists of floats, matrices lists of row lists).  Every value in the
modelled universe is serializable, so the `RuntimeError` arm of the
source cannot trigger. -/
def to_json_val : PyVal → PyVal
  | .vnone => .vnone
  | .vbool b => .vbool b
  | .vint n => .vint n
  | .vfloat q => .vfloat q
  | .vstr s => .vstr s
  | .vlist l => .vlist (to_json_val_list l)
  | .vvec c => .vlist (c.map PyVal.vfloat)
  | .vmatrix rows => .vlist (rows.map (fun r => .vlist (r.map PyVal.vfloat)))

/-- Recursive `to_json_val` over list elements. -/
def to_json_val_list : List PyVal → List PyVal
  | [] => []
  | x :: xs => to_json_val x :: to_json_val_list xs

end

/-- First-match lookup in an insertion-ordered association list (model of
`dict.get` / `dict[...]` for the exact-hash keys used here). -/
def dLookup {κ β : Type} [DecidableEq κ] : List (κ × β) → κ → Option β
  | [], _ => none
  | kv :: rest, k => if kv.1 = k then some kv.2 else dLookup rest k

/-- Model of `d[k]`, raising `KeyError` when the key is absent. -/
def dGet {κ β : Type} [DecidableEq κ] (d : List (κ × β)) (k : κ) : Except PyErr β :=
  match dLookup d k with
  | some v => .ok v
  | none => .error (.keyError "key not found")

/-- Model of `d[k] = v`: replace the value of an existing key in place,
otherwise append the new key at the end (Python dict insertion order). -/
def dictSet {κ β : Type} [DecidableEq κ] : List (κ × β) → κ → β → List (κ × β)
  | [], k, v => [(k, v)]
  | kv :: rest, k, v => if kv.1 = k then (k, v) :: rest else kv :: dictSet rest k v

/-- Model of `d1.update(d2)`. -/
def dictUpdateAll {κ β : Type} [DecidableEq κ] (d1 d2 : List (κ × β)) : List (κ × β) :=
  d2.foldl (fun acc kv => dictSet acc kv.1 kv.2) d1

/-- Python dict equality (`d1 == d2`): order-independent equality of the
key-to-value mappings, for dicts without duplicate keys. -/
def dictBEq {κ β : Type} [DecidableEq κ] [DecidableEq β] (d1 d2 : List (κ × β)) : Bool :=
  d1.all (fun kv => dLookup d2 kv.1 = some kv.2) &&
    d2.all (fun kv => dLookup d1 kv.1 = some kv.2)

/-- Model of `list.remove(x)`: remove the first occurrence, or report the
`ValueError` case as `none`. -/
def removeFirst {α : Type} [DecidableEq α] : List α → α → Option (List α)
  | [], _ => none
  | x :: xs, a =>
    if x = a then some xs
    else match removeFirst xs a with
      | some xs' => some (x :: xs')
      | none => none

/-- Model of `max(d)` over a Python dict (the maximum of its keys),
raising `ValueError` on an empty dict. -/
def pyMaxKey {β : Type} (d : List (Int × β)) : Except PyErr Int :=
  match d.map Prod.fst with
  | [] => .error (.valueError "max arg is an empty sequence")
  | k :: ks => .ok (ks.foldl max k)

/-- Model of `min(d)` over a Python dict (the minimum of its keys),
raising `ValueError` on an empty dict. -/
def pyMinKey {β : Type} (d : List (Int × β)) : Except PyErr Int :=
  match d.map Prod.fst with
  | [] => .error (.valueError "min arg is an empty sequence")
  | k :: ks => .ok (ks.foldl min k)

/-- Model of `is_sorted` on a list of frame numbers: adjacent elements
must be non-decreasing (the source returns `False` on the first
`last > current` pair). -/
def is_sorted : List Int → Bool
  | [] => true
  | [_] => true
  | a :: b :: rest => decide (a ≤ b) && is_sorted (b :: rest)

/-- Model of the list comprehension with exceptions: `[f(x) for x in xs]`
inside a `try`-free context propagates the first raised exception. -/
def exMap {α β : Type} (f : α → Except PyErr β) : List α → Except PyErr (List β)
  | [] => .ok []
  | x :: xs => do
    let y ← f x
    let ys ← exMap f xs
    pure (y :: ys)

/-- Model of a `for` loop threading a state with exceptions. -/
def exFoldl {σ α : Type} (f : σ → α → Except PyErr σ) : σ → List α → Except PyErr σ
  | s, [] => .ok s
  | s, x :: xs => do
    let s' ← f s x
    exFoldl f s' xs

/-- Model of `luxtest_const.DEFAULT_OVERRIDES`. -/
def DEFAULT_OVERRIDES : List (String × PyVal) :=
  [( "inputs:shaping:cone:angle", .vint 180)]

/-- An inclusive frame range, mirroring the `FrameRange` named tuple (the
source field `end` is a Lean keyword and is called `stop` here). -/
structure FrameRange where
  start : Int
  stop : Int
deriving DecidableEq, Repr

/-- Frame ranges of `AREA_LIGHT_SUMMARY_OVERRIDES` (the summary strings
attached to each range play no part in grouping and are not modelled). -/
def AREA_LIGHT_SUMMARY_RANGES : List FrameRange :=
  [⟨1, 5⟩, ⟨26, 30⟩, ⟨46, 50⟩]

/-- Frame ranges of `SUMMARY_OVERRIDES["iesTest"]`. -/
def IESTEST_SUMMARY_RANGES : List FrameRange :=
  [⟨1, 1⟩, ⟨11, 11⟩, ⟨21, 21⟩, ⟨31, 31⟩]

/-- Key ranges of `SUMMARY_OVERRIDES[light_name]`, in dict insertion
order; lights absent from the table get the empty list
(`SUMMARY_OVERRIDES.get(light_name, {})`). -/
def SUMMARY_OVERRIDE_RANGES (light_name : String) : List FrameRange :=
  if light_name = "distant" then [⟨1, 5⟩, ⟨6, 10⟩]
  else if light_name = "iesTest" then IESTEST_SUMMARY_RANGES
  else if light_name = "sphere" then AREA_LIGHT_SUMMARY_RANGES
  else if light_name = "disk" then AREA_LIGHT_SUMMARY_RANGES
  else if light_name = "cylinder" then AREA_LIGHT_SUMMARY_RANGES
  else if light_name = "rect" then AREA_LIGHT_SUMMARY_RANGES
  else if light_name = "iesLibPreview" then IESTEST_SUMMARY_RANGES
  else []

/-- Model of `get_override_group`: the first override range of the light
containing the frame, if any. -/
def get_override_group (light_name : String) (frame : Int) : Option FrameRange :=
  (SUMMARY_OVERRIDE_RANGES light_name).find?
    (fun r => decide (r.start ≤ frame) && decide (frame ≤ r.stop))

/-- Abstraction of a `Usd.Attribute` as consumed by the grouping code: its
name, the raw value `attr.Get(frame)` (before `to_json_val`), and the
schema fallback that `get_fallback` resolves when `DEFAULT_OVERRIDES` has
no entry for the name (the `HasFallbackValue`, prim-definition and
type-appropriate-zero logic are calls into USD, outside this repository,
and are collapsed into the `fallback` field). -/
structure UsdAttrM where
  name : String
  get : Int → PyVal
  fallback : PyVal

/-- Model of `get_fallback`: a `DEFAULT_OVERRIDES` entry for the attribute
name wins; otherwise the attribute's resolved schema fallback is used. -/
def get_fallback (attr : UsdAttrM) : PyVal :=
  match dLookup DEFAULT_OVERRIDES attr.name with
  | some override => override
  | none => attr.fallback

/-- A finalized frame group, mirroring the `FrameGroup` dataclass:
`varying` maps attribute names to their per-frame values, and
`non_default_constants` holds constant attributes away from their
default. -/
structure FrameGroup where
  frames : FrameRange
  varying : List (String × List (Int × PyVal))
  non_default_constants : List (String × PyVal)
deriving DecidableEq

/-- Model of Python `s.startswith(pre)`: code-point prefix test (the
built-in `String.startsWith` is not used because its byte-position
arithmetic does not evaluate by kernel reduction). -/
def py_startswith (s pre : String) : Bool := pre.data.isPrefixOf s.data

/-- The mutable grouping accumulator, mirroring the `FrameGroupTracker`
dataclass: `frame_vals` maps each frame (in insertion order, sorted by
the constructor) to an attribute-name-to-value dict; `varying` maps each
varying attribute to its detected "increasing" direction; `constants`
and `defaults` are the sorted constant attribute name lists. -/
structure FrameGroupTracker where
  light_name : String
  frame_vals : List (Int × List (String × PyVal))
  varying : List (String × Bool)
  constants : List String
  defaults : List String
  override_group : Option FrameRange
deriving DecidableEq

/-- Sorted union of the three attribute classes, shared by
`FrameGroupTracker.attrs` and the constructor (the `if varying` test of
the source is kept even though extending by an empty dict would be the
same). -/
def attrs_of (varying : List (String × Bool)) (constants defaults : List String) :
    List String :=
  List.insertionSort (· ≤ ·)
    (constants ++ defaults ++ (if varying = [] then [] else varying.map Prod.fst))

/-- Model of `FrameGroupTracker.attrs()`. -/
def FrameGroupTracker.attrs (t : FrameGroupTracker) : List String :=
  attrs_of t.varying t.constants t.defaults

/-- Model of `FrameGroupTracker.frames()`: the frame keys in dict order. -/
def FrameGroupTracker.frames (t : FrameGroupTracker) : List Int :=
  t.frame_vals.map Prod.fst

/-- Model of `FrameGroupTracker.validate`, with the checks in source
order: every frame's override group must match the tracker's, `attrs()`
must have no duplicates, `frame_vals` must be non-empty, a single-frame
tracker must have no varying attributes, the frames must be sorted, and
every frame's value dict must have exactly the keys `attrs()` in order
(the source's more detailed diagnosis of a key mismatch only refines the
error message). -/
def FrameGroupTracker.validate (t : FrameGroupTracker) : Except PyErr Unit :=
  if ¬ t.frame_vals.all
      (fun fv => get_override_group t.light_name fv.1 = t.override_group) then
    .error (.runtimeError
      "Tried to create a FrameGroupTracker with frames from different override groups")
  else if ¬ t.attrs.Nodup then
    .error (.valueError "duplicate attribute")
  else if t.frame_vals.length = 0 then
    .error (.valueError "empty frames")
  else if t.frame_vals.length = 1 ∧ t.varying ≠ [] then
    .error (.valueError "had only 1 frame, but had varying attrs")
  else if ¬ is_sorted (t.frame_vals.map Prod.fst) then
    .error (.valueError "attrs were not sorted")
  else if ¬ t.frame_vals.all (fun fv => fv.2.map Prod.fst = t.attrs) then
    .error (.valueError "frame attributes do not match attrs()")
  else .ok ()

/-- Model of constructing a `FrameGroupTracker` (dataclass `__init__`
followed by `__post_init__`): sort `constants` and `defaults`, sort
`frame_vals` by frame and re-key each frame's value dict by `attrs()`
(raising `KeyError` on a missing attribute), record the override group of
the first frame (`IndexError` when there are no frames), and validate. -/
def FrameGroupTracker.mkChecked (light_name : String)
    (frame_vals : List (Int × List (String × PyVal)))
    (varying : List (String × Bool)) (constants defaults : List String) :
    Except PyErr FrameGroupTracker := do
  let constants := List.insertionSort (· ≤ ·) constants
  let defaults := List.insertionSort (· ≤ ·) defaults
  let attrs := attrs_of varying constants defaults
  let sorted ← exMap
    (fun fv => do
      let revals ← exMap (fun a => do
        let v ← dGet fv.2 a
        pure (a, v)) attrs
      pure (fv.1, revals))
    (List.insertionSort (fun a b => a.1 ≤ b.1) frame_vals)
  let og ← match sorted with
    | [] => .error PyErr.indexError
    | fv :: _ => .ok (get_override_group light_name fv.1)
  let t : FrameGroupTracker :=
    ⟨light_name, sorted, varying, constants, defaults, og⟩
  match t.validate with
  | .error e => .error e
  | .ok _ => .ok t

/-- Loop body of `find_varying_vals` over `self.attrs()`: collect, in
dict insertion order, each attribute whose value differs between the two
frames, mapped to whether it increased. -/
def fvv_loop (attrs : List String) (this_vals other_vals : List (String × PyVal))
    (acc : List (String × Bool)) : Except PyErr (List (String × Bool)) :=
  match attrs with
  | [] => .ok acc
  | attr :: rest => do
    let old ← dGet this_vals attr
    let nw ← dGet other_vals attr
    let close ← vals_close old nw
    if close then fvv_loop rest this_vals other_vals acc
    else do
      let inc ← pyGT nw old
      fvv_loop rest this_vals other_vals (dictSet acc attr inc)

/-- Model of `FrameGroupTracker.find_varying_vals`. -/
def FrameGroupTracker.find_varying_vals (t : FrameGroupTracker) (this_frame : Int)
    (other : FrameGroupTracker) (other_frame : Int) :
    Except PyErr (List (String × Bool)) := do
  let this_vals ← dGet t.frame_vals this_frame
  let other_vals ← dGet other.frame_vals other_frame
  fvv_loop t.attrs this_vals other_vals []

/-- The promotion loop of `combine` (source lines 471-486): each newly
varying attribute not already tracked is added to `varying` and removed
from `constants`, or else from `defaults`; if it is in neither, the
"programming logic error" `RuntimeError` is raised. -/
def combine_promote : List (String × Bool) → List (String × Bool) →
    List String → List String →
    Except PyErr (List (String × Bool) × List String × List String)
  | [], vy, cs, ds => .ok (vy, cs, ds)
  | (attr, increasing) :: rest, vy, cs, ds =>
    if (dLookup vy attr).isSome then combine_promote rest vy cs ds
    else
      let vy' := dictSet vy attr increasing
      match removeFirst cs attr with
      | some cs' => combine_promote rest vy' cs' ds
      | none =>
        match removeFirst ds attr with
        | some ds' => combine_promote rest vy' cs ds'
        | none => .error (.runtimeError
            "programming logic error - new varying value not found in either constants or defaults")

/-- The `can_combine` decision of `combine` (source lines 461-468):
override groups, when present on either side, decide alone; otherwise a
tracker with no varying attribute accepts exactly one newly varying
attribute, and a tracker with varying attributes accepts exactly a diff
equal (as a dict) to its current `varying` map. -/
def combine_can (t other : FrameGroupTracker) (new_varying : List (String × Bool)) :
    Bool :=
  if t.override_group.isSome || other.override_group.isSome then
    decide (t.override_group = other.override_group)
  else if t.varying = [] then decide (new_varying.length = 1)
  else decide (new_varying.length = 1) && dictBEq new_varying t.varying

/-- Model of `FrameGroupTracker.combine(other)`: since the source mutates
`self` in place, the model returns the tracker after the call together
with the boolean result; on an exception no tracker is returned (the
source object is discarded by its only caller in that case). -/
def FrameGroupTracker.combine (t other : FrameGroupTracker) :
    Except PyErr (Bool × FrameGroupTracker) :=
  if t.attrs ≠ other.attrs then
    .error (.valueError "to combine two FrameGroups, must be over same set of attrs")
  else if other.frame_vals.length ≠ 1 then
    .error (.valueError "currenly only support adding a frame group of size 1")
  else match pyMaxKey t.frame_vals with
    | .error e => .error e
    | .ok mx =>
      match pyMinKey other.frame_vals with
      | .error e => .error e
      | .ok mn =>
        if mx ≥ mn then
          .error (.valueError
            "currenly only support adding a frame group whose frames are all strictly greater")
        else match t.frames.getLast? with
          | none => .error PyErr.indexError
          | some this_frame =>
            match other.frames.head? with
            | none => .error PyErr.indexError
            | some other_frame =>
              match t.find_varying_vals this_frame other other_frame with
              | .error e => .error e
              | .ok new_varying =>
                if combine_can t other new_varying then
                  match combine_promote new_varying t.varying t.constants t.defaults with
                  | .error e => .error e
                  | .ok (vy, cs, ds) =>
                    let t' : FrameGroupTracker :=
                      { t with varying := vy, constants := cs, defaults := ds,
                               frame_vals := dictUpdateAll t.frame_vals other.frame_vals }
                    match t'.validate with
                    | .error e => .error e
                    | .ok _ => .ok (true, t')
                else .ok (false, t)

/-- The classification loop of `for_frame` (source lines 509-518),
threading the growing `default_attrs` / `constant_attrs` lists and the
mutable default-value cache: a cache miss invokes `get_fallback` and
stores the result; the attribute is then classified by closeness of its
value to the default. -/
def for_frame_loop : List (UsdAttrM × PyVal) → List String → List String →
    List (String × PyVal) →
    Except PyErr (List String × List String × List (String × PyVal))
  | [], ds, cs, cache => .ok (ds, cs, cache)
  | (attr, val) :: rest, ds, cs, cache => do
    let resolved :=
      match dLookup cache attr.name with
      | some d => (d, cache)
      | none => (get_fallback attr, dictSet cache attr.name (get_fallback attr))
    let close ← vals_close val resolved.1
    if close then for_frame_loop rest (ds ++ [attr.name]) cs resolved.2
    else for_frame_loop rest ds (cs ++ [attr.name]) resolved.2

/-- Model of `FrameGroupTracker.for_frame`: classify every attribute of a
single frame as at-default or constant and construct the single-frame
tracker (the `default_vals=None` Python default is supplied explicitly by
the model's only caller, matching the source call site). -/
def FrameGroupTracker.for_frame (light_name : String) (frame : Int)
    (vals : List (UsdAttrM × PyVal)) (default_vals : List (String × PyVal)) :
    Except PyErr FrameGroupTracker := do
  let classified ← for_frame_loop vals [] [] default_vals
  let vals_by_name := vals.foldl (fun acc av => dictSet acc av.1.name av.2) []
  FrameGroupTracker.mkChecked light_name [(frame, vals_by_name)] []
    classified.2.1 classified.1

/-- Model of `FrameGroupTracker.for_frame_attrs`: check for attribute name
clashes, fetch this frame's values through `to_json_val`, and classify.
The source (line 541) rebinds the `default_vals` parameter to a fresh
empty dict before calling `for_frame`, so the cache passed in is
discarded; the model reproduces that rebinding faithfully. -/
def FrameGroupTracker.for_frame_attrs (light_name : String) (frame : Int)
    (attrs : List UsdAttrM) (default_vals : List (String × PyVal)) :
    Except PyErr FrameGroupTracker :=
  let all_names := List.insertionSort (· ≤ ·) (attrs.map UsdAttrM.name)
  if ¬ all_names.Nodup then .error (.valueError "name clash in attrs")
  else
    let vals := attrs.map (fun a => (a, to_json_val (a.get frame)))
    let default_vals := ([] : List (String × PyVal))
    FrameGroupTracker.for_frame light_name frame vals default_vals

/-- Model of `FrameGroupTracker.to_frame_group`: freeze the tracker into a
`FrameGroup`, taking the per-varying-attribute frame tables, the constant
values from the first frame, and dropping every `xformOp:`-prefixed key
from the constants unconditionally. -/
def FrameGroupTracker.to_frame_group (t : FrameGroupTracker) :
    Except PyErr FrameGroup := do
  match t.frame_vals with
  | [] => .error PyErr.indexError
  | fv0 :: rest => do
    let start := fv0.1
    let stop := (rest.getLastD fv0).1
    let varying_vals ←
      if t.varying ≠ [] then
        exMap (fun ab => do
          let col ← exMap (fun fv => do
            let v ← dGet fv.2 ab.1
            pure (fv.1, v)) t.frame_vals
          pure (ab.1, col)) t.varying
      else pure []
    let constants ←
      if t.constants ≠ [] then
        exMap (fun n => do
          let v ← dGet fv0.2 n
          pure (n, v)) t.constants
      else pure []
    let constants := constants.filter (fun kv => ¬ py_startswith kv.1 "xformOp:")
    pure ⟨⟨start, stop⟩, varying_vals, constants⟩

/-- Model of the `FrameGroupFinder` dataclass. -/
structure FrameGroupFinder where
  light_name : String
  all_attrs : List UsdAttrM
  all_frames : List Int
  frame_groups : List FrameGroupTracker

/-- Model of `FrameGroupFinder.run_frame`: build the single-frame tracker
for this frame; if there is no open group yet, open it; otherwise try to
merge into the last group, appending the new tracker on rejection. -/
def FrameGroupFinder.run_frame (fd : FrameGroupFinder) (frame : Int) :
    Except PyErr FrameGroupFinder := do
  let new_group ← FrameGroupTracker.for_frame_attrs fd.light_name frame fd.all_attrs []
  match fd.frame_groups.getLast? with
  | none => pure { fd with frame_groups := fd.frame_groups ++ [new_group] }
  | some last_group => do
    let res ← last_group.combine new_group
    if res.1 then
      pure { fd with frame_groups := fd.frame_groups.dropLast ++ [res.2] }
    else
      pure { fd with frame_groups := fd.frame_groups ++ [new_group] }

/-- Model of `FrameGroupFinder.run`: process every frame in order. -/
def FrameGroupFinder.run (fd : FrameGroupFinder) : Except PyErr FrameGroupFinder :=
  exFoldl FrameGroupFinder.run_frame fd fd.all_frames

/-- Model of the classmethod `FrameGroupFinder.find`. -/
def FrameGroupFinder.find (light_name : String) (all_attrs : List UsdAttrM)
    (all_frames : List Int) : Except PyErr (List FrameGroup) := do
  let finder : FrameGroupFinder := ⟨light_name, all_attrs, all_frames, []⟩
  let finder ← finder.run
  exMap FrameGroupTracker.to_frame_group finder.frame_groups

/-- Model of the attribute-name post-processing in
`LightParamDescription.from_light_prim` (source lines 679-686): collect
the varying attribute names of all groups, then keep an attribute name
only if it does not start with `xformOp:` or varies in some group.  The
surrounding stage/USD handling of `from_light_prim` is external I/O and
is not part of the grouping core. -/
def description_attr_names (frame_groups : List FrameGroup)
    (attr_names : List String) : List String :=
  let all_varying := frame_groups.foldl
    (fun acc g => acc ++ ((g.varying.map Prod.fst).filter (fun a => a ∉ acc))) []
  attr_names.filter (fun x => ¬ py_startswith x "xformOp:" ∨ x ∈ all_varying)

/-- Observation function for the default-resolution behaviour of
`for_frame` (source lines 509-514): the attribute names, in order, for
which the loop misses the cache and invokes `get_fallback`.  It mirrors
the cache threading of `for_frame_loop` exactly. -/
def for_frame_resolved : List (UsdAttrM × PyVal) → List (String × PyVal) → List String
  | [], _ => []
  | (attr, _) :: rest, cache =>
    match dLookup cache attr.name with
    | some _ => for_frame_resolved rest cache
    | none =>
      attr.name :: for_frame_resolved rest (dictSet cache attr.name (get_fallback attr))

/-- The default-resolver invocation trace of a whole finder run: each
`run_frame` calls `for_frame_attrs`, which (line 541) rebinds the cache
parameter to a fresh empty dict before classifying, so every frame's
snapshot starts with an empty cache. -/
def find_resolved (all_attrs : List UsdAttrM) (all_frames : List Int) : List String :=
  (all_frames.map (fun frame =>
    for_frame_resolved (all_attrs.map (fun a => (a, to_json_val (a.get frame)))) [])).flatten

/-- Decimal digit character for `d < 10`. -/
def digitChar (d : Nat) : Char := Char.ofNat (48 + d)

/-- Decimal rendering of a natural number, modelling the `str(key)` the
`json` module applies to integer dict keys. -/
def natKeyStr (n : Nat) : String :=
  if n = 0 then "0" else String.mk (((Nat.digits 10 n).map digitChar).reverse)

/-- Decimal rendering of an integer key. -/
def intKeyStr : Int → String
  | .ofNat m => natKeyStr m
  | .negSucc m => "-" ++ natKeyStr (m + 1)

/-- Value of a digit character list read as a decimal numeral. -/
def digitsVal (cs : List Char) : Nat :=
  cs.foldl (fun acc c => 10 * acc + (c.toNat - 48)) 0

/-- Whether a character is a decimal digit. -/
def isDigitCh (c : Char) : Bool := decide ('0' ≤ c) && decide (c ≤ '9')

/-- Model of Python `int(s)` on the decimal strings produced for frame
keys: an optional minus sign followed by one or more digits (the
tolerance of `int()` for surrounding whitespace and a leading plus sign
is irrelevant for keys written by the serializer). -/
def parseIntStr (s : String) : Option Int :=
  match s.data with
  | [] => none
  | c :: cs =>
    if c = '-' then
      if cs ≠ [] ∧ cs.all isDigitCh then some (-(digitsVal cs : Int)) else none
    else
      if (c :: cs).all isDigitCh then some ((digitsVal (c :: cs) : Int)) else none

/-- Model of `to_int_float` as applied by `FrameGroup.from_dict` to the
stringified frame keys.  The source first tries `int(frame)` and falls
back to `float(frame)`; frame keys in this embedding are integers (the
finder is driven with `range(start, end + 1)`), so the float branch can
never apply to a persisted key and is modelled as a `ValueError`. -/
def to_int_float (s : String) : Except PyErr Int :=
  match parseIntStr s with
  | some n => .ok n
  | none => .error (.valueError "could not convert string to int")

/-- The persisted record shape of one frame group after
`dataclasses.asdict` plus JSON encoding: the `frames` named tuple becomes
a two-element array and the frame keys of the `varying` tables become
strings.  The JSON encoding of the values themselves is the identity on
this model's value universe (note that a dict-valued attribute value with
non-string keys would additionally be stringified by the `json` library;
such values do not occur for light attributes). -/
structure PersistedFrameGroup where
  frames : List Int
  varying : List (String × List (String × PyVal))
  non_default_constants : List (String × PyVal)

/-- Serialization of a `FrameGroup` to its persisted record. -/
def FrameGroup.to_persisted (g : FrameGroup) : PersistedFrameGroup :=
  ⟨[g.frames.start, g.frames.stop],
   g.varying.map (fun av => (av.1, av.2.map (fun fv => (intKeyStr fv.1, fv.2)))),
   g.non_default_constants⟩

/-- Model of `FrameGroup.from_dict`: convert each varying table's frame
keys back to numbers with `to_int_float`, rebuild the `FrameRange` from
the two-element array (a `TypeError` if the arity is wrong), and
reassemble the dataclass. -/
def FrameGroup.from_dict (data : PersistedFrameGroup) : Except PyErr FrameGroup := do
  let varying ← exMap (fun av => do
    let framevals ← exMap (fun fv => do
      let k ← to_int_float fv.1
      pure (k, fv.2)) av.2
    pure (av.1, framevals)) data.varying
  let frames ← match data.frames with
    | [s, e] => .ok (FrameRange.mk s e)
    | _ => .error (.typeError "FrameRange expects start and end")
  pure ⟨frames, varying, data.non_default_constants⟩

instance {ε α : Type} [DecidableEq ε] [DecidableEq α] : DecidableEq (Except ε α) := fun a b =>
  match a, b with
  | .ok x, .ok y => decidable_of_iff (x = y) (by simp)
  | .error e, .error f => decidable_of_iff (e = f) (by simp)
  | .ok _, .error _ => isFalse (by simp)
  | .error _, .ok _ => isFalse (by simp)

theorem PyVal.asReal_of_isFloat {v : PyVal} (h : v.isFloat = true) :
    ∃ q : Rat, v.asReal = some q := by
  cases v <;> simp [PyVal.isFloat, PyVal.asReal] at h ⊢

theorem vals_close_stdF_of_typeName_ne (fuel : Nat) (v1 v2 : PyVal)
    (h1 : v1.isFloat = false) (h2 : v2.isFloat = false)
    (hne : v1.typeName ≠ v2.typeName) :
    vals_close_stdF (fuel + 1) v1 v2 = .ok false := by
  simp only [vals_close_stdF, h1, h2, Bool.or_self, Bool.false_eq_true, if_false, ne_eq, hne,
    not_false_eq_true, if_true]

theorem vals_close_stdF_float_err (fuel : Nat) (v1 v2 : PyVal)
    (h1 : v1.isFloat = true) (h2 : v2.asReal = none) :
    vals_close_stdF (fuel + 1) v1 v2 = .error (.typeError "must be real number") := by
  obtain ⟨q, hq⟩ := PyVal.asReal_of_isFloat h1
  simp only [vals_close_stdF, h1, Bool.true_or, if_true, hq, h2]

theorem vals_close_stdF_float_err' (fuel : Nat) (v1 v2 : PyVal)
    (h2 : v2.isFloat = true) (h1 : v1.asReal = none) :
    vals_close_stdF (fuel + 1) v1 v2 = .error (.typeError "must be real number") := by
  obtain ⟨q, hq⟩ := PyVal.asReal_of_isFloat h2
  simp only [vals_close_stdF, h2, Bool.or_true, if_true, hq, h1]

theorem vals_close_as_stdF (v1 v2 : PyVal) :
    vals_close v1 v2 =
      vals_close_stdF (2 * (psize v1 + psize v2) + 1) (stdVal v1) (stdVal v2) := rfl

/-- CLAIM C6 counterexample: comparing a floating-point scalar with a
sequence does not yield "not close" — `vals_close` raises `TypeError`
(from `math.isclose`), contradicting the claim that heterogeneous-type
comparisons always return false rather than raising. -/
theorem c6_counterexample :
    vals_close (.vfloat 1) (.vlist []) = .error (.typeError "must be real number") ∧
    vals_close (.vfloat 1) (.vlist []) ≠ .ok false := by
  decide

/-- CLAIM C6 (amended): for two values whose standardized forms have
different Python types, `vals_close` returns false without raising when
neither standardized value is a float; when one side is a float, the
comparison is numeric — it raises `TypeError` if the other side is not a
real number, and otherwise returns the `math.isclose` verdict (so a
heterogeneous float/int pair can even compare "close"). -/
theorem c6_amended (v1 v2 : PyVal)
    (hne : (stdVal v1).typeName ≠ (stdVal v2).typeName) :
    ((stdVal v1).isFloat = false → (stdVal v2).isFloat = false →
      vals_close v1 v2 = .ok false) ∧
    ((stdVal v1).isFloat = true → (stdVal v2).asReal = none →
      vals_close v1 v2 = .error (.typeError "must be real number")) ∧
    ((stdVal v2).isFloat = true → (stdVal v1).asReal = none →
      vals_close v1 v2 = .error (.typeError "must be real number")) ∧
    (∀ a b : Rat, (stdVal v1).isFloat = true ∨ (stdVal v2).isFloat = true →
      (stdVal v1).asReal = some a → (stdVal v2).asReal = some b →
      vals_close v1 v2 = .ok (isclose a b)) := by
  refine ⟨?_, ?_, ?_, ?_⟩
  · intro h1 h2
    rw [vals_close_as_stdF]
    exact vals_close_stdF_of_typeName_ne _ _ _ h1 h2 hne
  · intro h1 h2
    rw [vals_close_as_stdF]
    exact vals_close_stdF_float_err _ _ _ h1 h2
  · intro h2 h1
    rw [vals_close_as_stdF]
    exact vals_close_stdF_float_err' _ _ _ h2 h1
  · intro a b hf ha hb
    rw [vals_close_as_stdF]
    have hor : ((stdVal v1).isFloat || (stdVal v2).isFloat) = true := by
      rcases hf with h | h <;> simp [h]
    simp only [vals_close_stdF, hor, if_true, ha, hb]

/-- Witness for the amended C6: an `int` against a `list` is reported not
close without an exception. -/
theorem c6_witness : vals_close (.vint 1) (.vlist []) = .ok false :=
  (c6_amended (.vint 1) (.vlist []) (by decide)).1 (by decide) (by decide)

/-- The single attribute of the C2 scenario: values 1, 2, 3, 2 at frames
1-4, with a fallback of 0 so the attribute is never at its default. -/
def c2attr : UsdAttrM :=
  ⟨ "c",
   fun f => .vint (if f = 1 then 1 else if f = 2 then 2 else if f = 3 then 3 else 2),
   .vint 0⟩

/-- CLAIM C2 counterexample: on values `[1, 2, 3, 2]` over frames
`[1, 2, 3, 4]` the finder returns groups `[1, 3]` and `[4, 4]` — the
second group is the single rejected frame, not the claimed `[3, 4]`, and
frame 3 is not shared between groups. -/
theorem c2_counterexample :
    FrameGroupFinder.find "point" [c2attr] [1, 2, 3, 4] =
      .ok [⟨⟨1, 3⟩, [( "c", [(1, .vint 1), (2, .vint 2), (3, .vint 3)])], []⟩,
           ⟨⟨4, 4⟩, [], [( "c", .vint 2)]⟩] ∧
    (⟨4, 4⟩ : FrameRange) ≠ ⟨3, 4⟩ := by
  decide

/-- CLAIM C2 (amended): the run yields the group `[1, 3]` with `c`
varying (tracked as increasing, per-frame values 1, 2, 3) followed by the
single-frame group `[4, 4]` with no varying attribute and `c` among the
non-default constants at value 2; the direction-reversing frame 4 starts
the new group and frame 3 belongs only to the first group. -/
theorem c2_amended :
    FrameGroupFinder.find "point" [c2attr] [1, 2, 3, 4] =
      .ok [⟨⟨1, 3⟩, [( "c", [(1, .vint 1), (2, .vint 2), (3, .vint 3)])], []⟩,
           ⟨⟨4, 4⟩, [], [( "c", .vint 2)]⟩] ∧
    (FrameGroupFinder.run ⟨ "point", [c2attr], [1, 2, 3, 4], []⟩).map
        (fun fd => fd.frame_groups.map FrameGroupTracker.varying) =
      .ok [[( "c", true)], []] := by
  decide

/-- The constant attribute of the C8 scenario. -/
def c8attr : UsdAttrM := ⟨ "a", fun _ => .vint 5, .vint 0⟩

/-- CLAIM C8: the default resolver is invoked again at the second frame
for an attribute already resolved at the first frame, because
`for_frame_attrs` discards the passed cache (line 541 rebinds it to a
fresh empty dict) and `run_frame` shares no cache across frames; the
claim that a cached attribute is not re-resolved fails on frames
`[1, 2]` with the single attribute `a`. -/
theorem c8_resolver_called_twice :
    find_resolved [c8attr] [1, 2] = [ "a", "a"] ∧
    ([ "a", "a"] : List String) ≠ [ "a"] := by
  decide

/-- The constant attribute of the C3 scenario. -/
def c3attr : UsdAttrM := ⟨ "a", fun _ => .vint 5, .vint 0⟩

/-- CLAIM C3 counterexample: for the light `distant` (override range
1-5), a constant non-default attribute over frames `[1, 2]` produces via
the override-group merge a finalized group spanning two frames with an
empty `varying` set, and `validate` accepts the corresponding two-frame
tracker — so validation does not enforce a non-empty `varying` set for
multi-frame trackers. -/
theorem c3_counterexample :
    FrameGroupFinder.find "distant" [c3attr] [1, 2] =
      .ok [⟨⟨1, 2⟩, [], [( "a", .vint 5)]⟩] ∧
    (1 : Int) < 2 ∧
    FrameGroupTracker.validate
      ⟨ "distant", [(1, [( "a", .vint 5)]), (2, [( "a", .vint 5)])], [],
       [ "a"], [], some ⟨1, 5⟩⟩ = .ok () := by
  decide

theorem validate_ok_iff (t : FrameGroupTracker) :
    t.validate = .ok () ↔
      ((∀ fv ∈ t.frame_vals, get_override_group t.light_name fv.1 = t.override_group) ∧
       t.attrs.Nodup ∧
       t.frame_vals ≠ [] ∧
       (t.frame_vals.length = 1 → t.varying = []) ∧
       is_sorted (t.frame_vals.map Prod.fst) = true ∧
       (∀ fv ∈ t.frame_vals, fv.2.map Prod.fst = t.attrs)) := by
  unfold FrameGroupTracker.validate
  split_ifs with h1 h2 h3 h4 h5 h6 <;>
    simp_all [List.all_eq_true, List.length_eq_zero, decide_eq_true_eq] <;>
    try tauto

/-- Inversion of a non-raising `combine` call: the attribute-set,
candidate-size and frame-order preconditions passed, `find_varying_vals`
succeeded, and the result is either a rejection returning the unchanged
tracker or a merge assembled by the promotion loop and accepted by
`validate`. -/
theorem combine_ok_inv {t other : FrameGroupTracker} {b : Bool}
    {t' : FrameGroupTracker} (h : t.combine other = .ok (b, t')) :
    t.attrs = other.attrs ∧ other.frame_vals.length = 1 ∧
    ∃ mx mn this_frame other_frame nv,
      pyMaxKey t.frame_vals = .ok mx ∧ pyMinKey other.frame_vals = .ok mn ∧
      mx < mn ∧
      t.frames.getLast? = some this_frame ∧ other.frames.head? = some other_frame ∧
      t.find_varying_vals this_frame other other_frame = .ok nv ∧
      ((b = false ∧ combine_can t other nv = false ∧ t' = t) ∨
       (b = true ∧ combine_can t other nv = true ∧
        ∃ vy cs ds,
          combine_promote nv t.varying t.constants t.defaults = .ok (vy, cs, ds) ∧
          t' = { t with
                 varying := vy
                 constants := cs
                 defaults := ds
                 frame_vals := dictUpdateAll t.frame_vals other.frame_vals } ∧
          t'.validate = .ok ())) := by
  unfold FrameGroupTracker.combine at h
  by_cases h1 : t.attrs ≠ other.attrs
  · rw [if_pos h1] at h; exact absurd h (by simp)
  rw [if_neg h1] at h
  by_cases h2 : other.frame_vals.length ≠ 1
  · rw [if_pos h2] at h; exact absurd h (by simp)
  rw [if_neg h2] at h
  refine ⟨not_ne_iff.mp h1, not_ne_iff.mp h2, ?_⟩
  split at h
  · exact absurd h (by simp)
  rename_i mx hmx
  split at h
  · exact absurd h (by simp)
  rename_i mn hmn
  by_cases h3 : mx ≥ mn
  · rw [if_pos h3] at h; exact absurd h (by simp)
  rw [if_neg h3] at h
  split at h
  · exact absurd h (by simp)
  rename_i this_frame hthis
  split at h
  · exact absurd h (by simp)
  rename_i other_frame hother
  split at h
  · exact absurd h (by simp)
  rename_i nv hnv
  refine ⟨mx, mn, this_frame, other_frame, nv, hmx, hmn, by omega, hthis, hother, hnv, ?_⟩
  by_cases hcan : combine_can t other nv = true
  · rw [if_pos hcan] at h
    split at h
    · exact absurd h (by simp)
    rename_i vy cs ds hres
    simp only [] at h
    split at h
    · exact absurd h (by simp)
    rename_i u hval
    cases u
    rw [Except.ok.injEq, Prod.mk.injEq] at h
    rw [h.2] at hval
    exact Or.inr ⟨h.1.symm, hcan, vy, cs, ds, hres, h.2.symm, hval⟩
  · rw [if_neg hcan] at h
    rw [Except.ok.injEq, Prod.mk.injEq] at h
    exact Or.inl ⟨h.1.symm, by simpa using hcan, h.2.symm⟩

theorem dictSet_ne_nil {κ β : Type} [DecidableEq κ] (d : List (κ × β)) (k : κ) (v : β) :
    dictSet d k v ≠ [] := by
  cases d with
  | nil => simp [dictSet]
  | cons kv rest =>
    simp only [dictSet]
    split <;> simp

theorem combine_promote_ne_nil :
    ∀ (nv vy : List (String × Bool)) (cs ds : List String)
      (vy' : List (String × Bool)) (cs' ds' : List String),
      combine_promote nv vy cs ds = .ok (vy', cs', ds') → vy ≠ [] → vy' ≠ [] := by
  intro nv
  induction nv with
  | nil =>
    intro vy cs ds vy' cs' ds' h hne
    simp only [combine_promote, Except.ok.injEq, Prod.mk.injEq] at h
    rw [← h.1]
    exact hne
  | cons kv rest ih =>
    intro vy cs ds vy' cs' ds' h hne
    obtain ⟨attr, increasing⟩ := kv
    simp only [combine_promote] at h
    split at h
    · exact ih vy cs ds vy' cs' ds' h hne
    · split at h
      · rename_i cs1 hcs
        exact ih _ cs1 ds vy' cs' ds' h (dictSet_ne_nil _ _ _)
      · split at h
        · rename_i ds1 hds
          exact ih _ cs ds1 vy' cs' ds' h (dictSet_ne_nil _ _ _)
        · exact absurd h (by simp)

theorem combine_promote_single {a : String} {i : Bool} {cs ds : List String}
    {vy' : List (String × Bool)} {cs' ds' : List String}
    (h : combine_promote [(a, i)] [] cs ds = .ok (vy', cs', ds')) : vy' = [(a, i)] := by
  simp only [combine_promote, dLookup, Option.isSome_none, Bool.false_eq_true, if_false,
    dictSet] at h
  split at h
  · simp only [combine_promote, Except.ok.injEq, Prod.mk.injEq] at h
    exact h.1.symm
  · split at h
    · simp only [combine_promote, Except.ok.injEq, Prod.mk.injEq] at h
      exact h.1.symm
    · exact absurd h (by simp)

/-- CLAIM C3 (amended): validation enforces only the single-frame
direction of the invariant — a validated tracker with exactly one frame
has an empty `varying` set — and a successful `combine` outside override
groups yields a tracker with a non-empty `varying` set; but multi-frame
trackers produced by an override-range merge (the counterexample) may
have an empty `varying` set, and validation accepts them. -/
theorem c3_amended :
    (∀ t : FrameGroupTracker, t.validate = .ok () → t.frame_vals.length = 1 →
      t.varying = []) ∧
    (∀ t other t' : FrameGroupTracker,
      t.override_group = none → other.override_group = none →
      t.combine other = .ok (true, t') → t'.varying ≠ []) := by
  constructor
  · intro t hval hlen
    exact ((validate_ok_iff t).mp hval).2.2.2.1 hlen
  · intro t other t' hog hoog hcomb
    obtain ⟨-, -, mx, mn, tf, of, nv, -, -, -, -, -, hnv, hres⟩ := combine_ok_inv hcomb
    rcases hres with ⟨hb, -, -⟩ | ⟨-, hcan, vy, cs, ds, hprom, ht', -⟩
    · exact absurd hb (by simp)
    · have hvy : t'.varying = vy := by rw [ht']
      rw [hvy]
      unfold combine_can at hcan
      rw [hog, hoog] at hcan
      simp only [Option.isSome_none, Bool.or_self, Bool.false_eq_true, if_false] at hcan
      by_cases hv : t.varying = []
      · rw [if_pos hv] at hcan
        rw [hv] at hprom
        have h1 : nv.length = 1 := by simpa using hcan
        obtain ⟨⟨a, i⟩, hnv1⟩ := List.length_eq_one.mp h1
        rw [hnv1] at hprom
        rw [combine_promote_single hprom]
        simp
      · rw [if_neg hv] at hcan
        exact combine_promote_ne_nil nv t.varying t.constants t.defaults vy cs ds hprom hv

/-- Witness for the amended C3: a concrete validated single-frame tracker
has an empty varying set, via the theorem. -/
theorem c3_witness :
    FrameGroupTracker.varying ⟨ "point", [(1, [( "a", .vint 5)])], [], [ "a"], [], none⟩ = [] :=
  c3_amended.1 ⟨ "point", [(1, [( "a", .vint 5)])], [], [ "a"], [], none⟩ (by decide) (by decide)

/-- The trackers of the C4 witness scenario (no attributes, so the merge
is rejected because the diff is empty). -/
def c4t : FrameGroupTracker := ⟨ "point", [(1, [])], [], [], [], none⟩

/-- Single-frame rejection candidate for the C4 witness. -/
def c4o : FrameGroupTracker := ⟨ "point", [(2, [])], [], [], [], none⟩

/-- CLAIM C4: for a valid tracker and a valid single-frame candidate over
the same attribute set with a strictly greater frame number, a `combine`
call that returns false leaves the tracker exactly as it was (all fields,
including `override_group`), and the rejection is an ordinary return, not
an exception. -/
theorem c4_rejection_no_mutation (t other t' : FrameGroupTracker)
    (hvt : t.validate = .ok ()) (hvo : other.validate = .ok ())
    (hattrs : t.attrs = other.attrs) (hlen : other.frame_vals.length = 1)
    (hgt : ∀ f1 ∈ t.frames, ∀ f2 ∈ other.frames, f1 < f2)
    (h : t.combine other = .ok (false, t')) : t' = t := by
  obtain ⟨-, -, mx, mn, tf, of, nv, -, -, -, -, -, -, hres⟩ := combine_ok_inv h
  rcases hres with ⟨-, -, ht⟩ | ⟨hb, -⟩
  · exact ht
  · exact absurd hb (by simp)

/-- Witness for C4: a concrete rejected merge returns the unchanged
tracker, with every hypothesis discharged by evaluation. -/
theorem c4_witness :
    FrameGroupTracker.combine c4t c4o = .ok (false, c4t) ∧ c4t = c4t :=
  ⟨by decide,
   c4_rejection_no_mutation c4t c4o c4t (by decide) (by decide) (by decide) (by decide)
     (by decide) (by decide)⟩

/-- The pose attribute of the C7 scenario: `xformOp:t` moves from its
default 0 to 1 at frame 2, then stays constant (and so non-default)
through frame 3. -/
def c7attr : UsdAttrM :=
  ⟨ "xformOp:t", fun f => .vint (if f = 1 then 0 else 1), .vint 0⟩

/-- CLAIM C7 counterexample: `xformOp:t` varies in the first group and is
a constant non-default attribute of the second group's frames, yet the
second finalized group's `non_default_constants` is empty —
`to_frame_group` drops `xformOp:`-prefixed constants unconditionally
(per-group), with no exemption for attributes that vary in another group
of the same light. -/
theorem c7_counterexample :
    FrameGroupFinder.find "point" [c7attr] [1, 2, 3] =
      .ok [⟨⟨1, 2⟩, [( "xformOp:t", [(1, .vint 0), (2, .vint 1)])], []⟩,
           ⟨⟨3, 3⟩, [], []⟩] ∧
    "xformOp:t" ∈
      [( "xformOp:t", [((1 : Int), PyVal.vint 0), (2, PyVal.vint 1)])].map Prod.fst ∧
    (⟨⟨3, 3⟩, [], []⟩ : FrameGroup).non_default_constants = [] := by
  decide

theorem mem_fold_varying (x : String) : ∀ (gs : List FrameGroup) (acc : List String),
    (x ∈ gs.foldl
      (fun acc g => acc ++ ((g.varying.map Prod.fst).filter (fun a => a ∉ acc))) acc) ↔
      (x ∈ acc ∨ ∃ g ∈ gs, x ∈ g.varying.map Prod.fst) := by
  intro gs
  induction gs with
  | nil => intro acc; simp
  | cons g rest ih =>
    intro acc
    simp only [List.foldl_cons]
    rw [ih]
    constructor
    · rintro (h | h)
      · rw [List.mem_append] at h
        rcases h with h | h
        · exact Or.inl h
        · exact Or.inr ⟨g, by simp, (List.mem_filter.mp h).1⟩
      · obtain ⟨g', hg', hx⟩ := h
        exact Or.inr ⟨g', by simp [hg'], hx⟩
    · rintro (h | ⟨g', hg', hx⟩)
      · exact Or.inl (List.mem_append.mpr (Or.inl h))
      · rcases List.mem_cons.mp hg' with rfl | hg'
        · by_cases hacc : x ∈ acc
          · exact Or.inl (List.mem_append.mpr (Or.inl hacc))
          · refine Or.inl (List.mem_append.mpr (Or.inr ?_))
            rw [List.mem_filter]
            exact ⟨hx, by simpa using hacc⟩
        · exact Or.inr ⟨g', hg', hx⟩

theorem to_frame_group_constants_no_xform {t : FrameGroupTracker} {g : FrameGroup}
    (h : t.to_frame_group = .ok g) :
    ∀ kv ∈ g.non_default_constants, py_startswith kv.1 "xformOp:" = false := by
  unfold FrameGroupTracker.to_frame_group at h
  split at h
  · exact absurd h (by simp)
  rename_i fv0 rest hfv
  simp only [bind, Except.bind] at h
  repeat' split at h
  all_goals try exact Except.noConfusion h
  all_goals
    have hg := Except.ok.inj h
  all_goals
    intro kv hkv
  all_goals
    rw [← hg] at hkv
  all_goals
    simp only [List.mem_filter, decide_eq_true_eq] at hkv
  all_goals
    simpa using hkv.2

/-- CLAIM C7 (amended): `to_frame_group` drops `xformOp:`-prefixed
attributes from each finalized group's `non_default_constants`
unconditionally — no finalized group carries an `xformOp:` constant, even
when the attribute varies in another group of the light.  The
appears-as-varying-somewhere exemption is applied by
`from_light_prim`'s post-processing to the light description's attribute
name list instead: a name survives that filter iff it is in the input
list and either lacks the `xformOp:` prefix or varies in some group. -/
theorem c7_amended :
    (∀ (t : FrameGroupTracker) (g : FrameGroup), t.to_frame_group = .ok g →
      ∀ kv ∈ g.non_default_constants, py_startswith kv.1 "xformOp:" = false) ∧
    (∀ (gs : List FrameGroup) (names : List String) (x : String),
      x ∈ description_attr_names gs names ↔
        x ∈ names ∧ (py_startswith x "xformOp:" = false ∨
          ∃ g ∈ gs, x ∈ g.varying.map Prod.fst)) := by
  constructor
  · intro t g h
    exact to_frame_group_constants_no_xform h
  · intro gs names x
    simp only [description_attr_names, List.mem_filter, decide_eq_true_eq,
      mem_fold_varying, List.not_mem_nil, false_or, Bool.not_eq_true]

/-- Witness for the amended C7: a concrete finalized group keeps its
non-pose constant, whose name indeed lacks the prefix, via the theorem. -/
theorem c7_witness : py_startswith "a" "xformOp:" = false :=
  c7_amended.1 ⟨ "point", [(1, [( "a", .vint 5)])], [], [ "a"], [], none⟩
    ⟨⟨1, 1⟩, [], [( "a", .vint 5)]⟩ (by decide) ( "a", .vint 5) (by decide)

theorem digitChar_digit {d : Nat} (hd : d < 10) :
    isDigitCh (digitChar d) = true ∧ (digitChar d).toNat - 48 = d := by
  interval_cases d <;> exact ⟨by decide, by decide⟩

theorem digitChar_ne_dash {d : Nat} (hd : d < 10) : digitChar d ≠ '-' := by
  interval_cases d <;> decide

theorem digitsVal_append (cs : List Char) (c : Char) :
    digitsVal (cs ++ [c]) = 10 * digitsVal cs + (c.toNat - 48) := by
  unfold digitsVal
  rw [List.foldl_append]
  rfl

theorem digitsVal_rev_digits : ∀ ds : List Nat, (∀ d ∈ ds, d < 10) →
    digitsVal ((ds.map digitChar).reverse) = Nat.ofDigits 10 ds := by
  intro ds
  induction ds with
  | nil => intro _; simp [digitsVal, Nat.ofDigits_nil]
  | cons d rest ih =>
    intro h
    have hd : d < 10 := h d (by simp)
    simp only [List.map_cons, List.reverse_cons]
    rw [digitsVal_append, ih (fun x hx => h x (by simp [hx])), Nat.ofDigits_cons,
      (digitChar_digit hd).2]
    ring

theorem parseIntStr_dash (L : List Char) (hne : L ≠ [])
    (hdig : L.all isDigitCh = true) :
    parseIntStr ⟨'-' :: L⟩ = some (-(digitsVal L : Int)) := by
  unfold parseIntStr
  simp [hne, hdig]

theorem parseIntStr_digits (c : Char) (cs : List Char) (hc : c ≠ '-')
    (hdig : (c :: cs).all isDigitCh = true) :
    parseIntStr ⟨c :: cs⟩ = some ((digitsVal (c :: cs) : Int)) := by
  unfold parseIntStr
  simp [hc, hdig]

theorem natKeyStr_data (n : Nat) (hn : n ≠ 0) :
    (natKeyStr n).data = ((Nat.digits 10 n).map digitChar).reverse := by
  unfold natKeyStr
  rw [if_neg hn]

theorem natKeyStr_digits (n : Nat) (hn : n ≠ 0) :
    ((natKeyStr n).data ≠ [] ∧ (natKeyStr n).data.all isDigitCh = true) ∧
      digitsVal (natKeyStr n).data = n := by
  have hlt : ∀ d ∈ Nat.digits 10 n, d < 10 :=
    fun d hd => Nat.digits_lt_base (by norm_num) hd
  rw [natKeyStr_data n hn]
  refine ⟨⟨?_, ?_⟩, ?_⟩
  · intro hL
    have h2 := congrArg List.length hL
    simp only [List.length_reverse, List.length_map, List.length_nil] at h2
    exact (Nat.digits_ne_nil_iff_ne_zero.mpr hn) (List.eq_nil_of_length_eq_zero h2)
  · rw [List.all_eq_true]
    intro c hc
    rw [List.mem_reverse, List.mem_map] at hc
    obtain ⟨d, hd, rfl⟩ := hc
    exact (digitChar_digit (hlt d hd)).1
  · rw [digitsVal_rev_digits _ hlt, Nat.ofDigits_digits]

theorem parse_natKeyStr (n : Nat) : parseIntStr (natKeyStr n) = some (n : Int) := by
  by_cases hn : n = 0
  · subst hn; decide
  · obtain ⟨⟨hne, hdig⟩, hval⟩ := natKeyStr_digits n hn
    match hL : (natKeyStr n).data with
    | [] => exact absurd hL hne
    | c :: cs =>
      rw [hL] at hdig hval
      have hcd : isDigitCh c = true := by
        rw [List.all_eq_true] at hdig
        exact hdig c (by simp)
      have hcne : c ≠ '-' := by
        intro hc
        rw [hc] at hcd
        exact absurd hcd (by decide)
      calc parseIntStr (natKeyStr n) = parseIntStr ⟨c :: cs⟩ := by rw [← hL]
        _ = some ((digitsVal (c :: cs) : Int)) := parseIntStr_digits c cs hcne hdig
        _ = some ((n : Nat) : Int) := by rw [hval]

theorem parse_intKeyStr (n : Int) : parseIntStr (intKeyStr n) = some n := by
  cases n with
  | ofNat m => exact parse_natKeyStr m
  | negSucc m =>
    have hm : m + 1 ≠ 0 := by omega
    obtain ⟨⟨hne, hdig⟩, hval⟩ := natKeyStr_digits (m + 1) hm
    have : intKeyStr (Int.negSucc m) = ⟨'-' :: (natKeyStr (m + 1)).data⟩ := rfl
    rw [this, parseIntStr_dash _ hne hdig, hval]
    congr 1

theorem to_int_float_intKeyStr (n : Int) : to_int_float (intKeyStr n) = .ok n := by
  unfold to_int_float
  rw [parse_intKeyStr]

theorem exMap_map_ok {α β : Type} (f : β → Except PyErr α) (m : α → β) :
    ∀ l : List α, (∀ x ∈ l, f (m x) = .ok x) → exMap f (l.map m) = .ok l := by
  intro l
  induction l with
  | nil => intro _; rfl
  | cons x xs ih =>
    intro h
    simp only [List.map_cons, exMap, h x (by simp), bind, Except.bind,
      ih (fun y hy => h y (by simp [hy]))]
    rfl

/-- Round-trip of one frame group through the persisted record format. -/
theorem from_dict_to_persisted (g : FrameGroup) :
    FrameGroup.from_dict g.to_persisted = .ok g := by
  unfold FrameGroup.from_dict FrameGroup.to_persisted
  rw [exMap_map_ok _ _ g.varying]
  · rfl
  · intro av _
    rw [exMap_map_ok _ _ av.2]
    · rfl
    · intro fv _
      simp only [to_int_float_intKeyStr, bind, Except.bind]
      rfl

/-- CLAIM C9: any frame-group list produced by the finder survives the
round trip through the persisted record format — serialization
stringifies the per-frame keys of the varying tables, and
`FrameGroup.from_dict` restores them through `to_int_float`, yielding
identical frame ranges, varying tables and non-default constants.  (The
round trip in fact holds for every `FrameGroup`; the finder hypothesis
scopes the statement to the claim.) -/
theorem c9_roundtrip (light : String) (all_attrs : List UsdAttrM)
    (all_frames : List Int) (gs : List FrameGroup)
    (hfind : FrameGroupFinder.find light all_attrs all_frames = .ok gs) :
    exMap FrameGroup.from_dict (gs.map FrameGroup.to_persisted) = .ok gs :=
  exMap_map_ok _ _ gs (fun g _ => from_dict_to_persisted g)

/-- The varying attribute of the C9 witness scenario. -/
def c9attr : UsdAttrM := ⟨ "c", fun f => .vint f, .vint 0⟩

/-- Witness for C9: a concrete finder output round-trips unchanged. -/
theorem c9_witness :
    exMap FrameGroup.from_dict
      ([(⟨⟨1, 2⟩, [( "c", [(1, .vint 1), (2, .vint 2)])], []⟩ : FrameGroup)].map
        FrameGroup.to_persisted) =
      .ok [⟨⟨1, 2⟩, [( "c", [(1, .vint 1), (2, .vint 2)])], []⟩] :=
  c9_roundtrip "point" [c9attr] [1, 2] _ (by decide)

theorem removeFirst_eq {α : Type} [DecidableEq α] :
    ∀ (l : List α) (a : α),
      removeFirst l a = if a ∈ l then some (l.erase a) else none := by
  intro l a
  induction l with
  | nil => simp [removeFirst]
  | cons x xs ih =>
    simp only [removeFirst, ih]
    by_cases hx : x = a
    · subst hx
      simp [List.erase_cons_head]
    · rw [if_neg hx]
      by_cases hmem : a ∈ xs
      · rw [if_pos hmem, if_pos (List.mem_cons_of_mem x hmem)]
        show some (x :: xs.erase a) = some ((x :: xs).erase a)
        rw [List.erase_cons_tail (by simp [hx])]
      · rw [if_neg hmem, if_neg (by simp [hmem]; exact fun h => hx h.symm)]

theorem mem_dictSet {κ β : Type} [DecidableEq κ] :
    ∀ (d : List (κ × β)) (k : κ) (v : β) (kv : κ × β),
      kv ∈ dictSet d k v → kv = (k, v) ∨ kv ∈ d := by
  intro d k v
  induction d with
  | nil => intro kv h; simp [dictSet] at h; exact Or.inl h
  | cons x xs ih =>
    intro kv h
    simp only [dictSet] at h
    split at h
    · rcases List.mem_cons.mp h with h | h
      · exact Or.inl h
      · exact Or.inr (by simp [h])
    · rcases List.mem_cons.mp h with h | h
      · exact Or.inr (by simp [h])
      · rcases ih kv h with h | h
        · exact Or.inl h
        · exact Or.inr (by simp [h])

theorem fvv_loop_keys_sub (tv ov : List (String × PyVal)) :
    ∀ (attrs : List String) (acc nv : List (String × Bool)),
      fvv_loop attrs tv ov acc = .ok nv →
      ∀ kv ∈ nv, kv.1 ∈ attrs ∨ kv ∈ acc := by
  intro attrs
  induction attrs with
  | nil =>
    intro acc nv h kv hkv
    simp only [fvv_loop, Except.ok.injEq] at h
    exact Or.inr (h ▸ hkv)
  | cons a rest ih =>
    intro acc nv h kv hkv
    simp only [fvv_loop, bind, Except.bind] at h
    split at h
    · exact absurd h (by simp)
    rename_i old hold
    split at h
    · exact absurd h (by simp)
    rename_i nw hnw
    split at h
    · exact absurd h (by simp)
    rename_i close hclose
    split at h
    · rcases ih acc nv h kv hkv with h' | h'
      · exact Or.inl (by simp [h'])
      · exact Or.inr h'
    · split at h
      · exact absurd h (by simp)
      rename_i inc hinc
      rcases ih _ nv h kv hkv with h' | h'
      · exact Or.inl (by simp [h'])
      · rcases mem_dictSet _ _ _ _ h' with h'' | h''
        · exact Or.inl (by simp [h''])
        · exact Or.inr h''

theorem find_varying_vals_keys_sub {t other : FrameGroupTracker}
    {tf of : Int} {nv : List (String × Bool)}
    (h : t.find_varying_vals tf other of = .ok nv) :
    ∀ kv ∈ nv, kv.1 ∈ t.attrs := by
  unfold FrameGroupTracker.find_varying_vals at h
  simp only [bind, Except.bind] at h
  split at h
  · exact absurd h (by simp)
  rename_i tv htv
  split at h
  · exact absurd h (by simp)
  rename_i ov hov
  intro kv hkv
  rcases fvv_loop_keys_sub tv ov t.attrs [] nv h kv hkv with h' | h'
  · exact h'
  · simp at h'

theorem attrs_perm (t : FrameGroupTracker) :
    t.attrs.Perm (t.constants ++ t.defaults ++ t.varying.map Prod.fst) := by
  unfold FrameGroupTracker.attrs attrs_of
  have hif : (if t.varying = [] then [] else t.varying.map Prod.fst) =
      t.varying.map Prod.fst := by
    by_cases hv : t.varying = []
    · simp [hv]
    · rw [if_neg hv]
  rw [hif]
  exact List.perm_insertionSort _ _

theorem dLookup_eq_none {κ β : Type} [DecidableEq κ] :
    ∀ (d : List (κ × β)) (k : κ), dLookup d k = none ↔ k ∉ d.map Prod.fst := by
  intro d k
  induction d with
  | nil => simp [dLookup]
  | cons kv rest ih =>
    simp only [dLookup, List.map_cons, List.mem_cons]
    split
    · rename_i hk
      simp [hk]
    · rename_i hk
      rw [ih]
      constructor
      · intro h hmem
        rcases hmem with hmem | hmem
        · exact hk hmem.symm
        · exact h hmem
      · intro h hmem
        exact h (Or.inr hmem)

theorem dictSet_of_not_mem {κ β : Type} [DecidableEq κ] :
    ∀ (d : List (κ × β)) (k : κ) (v : β), k ∉ d.map Prod.fst →
      dictSet d k v = d ++ [(k, v)] := by
  intro d k v
  induction d with
  | nil => intro _; rfl
  | cons kv rest ih =>
    intro h
    simp only [List.map_cons, List.mem_cons] at h
    push_neg at h
    have hne : ¬ (kv.1 = k) := fun hh => h.1 hh.symm
    simp only [dictSet, if_neg hne, List.cons_append]
    rw [ih h.2]

theorem dictSet_keys_of_not_mem {κ β : Type} [DecidableEq κ]
    (d : List (κ × β)) (k : κ) (v : β) (h : k ∉ d.map Prod.fst) :
    (dictSet d k v).map Prod.fst = d.map Prod.fst ++ [k] := by
  rw [dictSet_of_not_mem d k v h]
  simp

theorem foldl_max_mem : ∀ (l : List Int) (x : Int), l.foldl max x ∈ x :: l := by
  intro l
  induction l with
  | nil => intro x; simp
  | cons y ys ih =>
    intro x
    simp only [List.foldl_cons]
    rcases List.mem_cons.mp (ih (max x y)) with h | h
    · rw [h]
      rcases max_choice x y with hm | hm <;> rw [hm] <;> simp
    · simp [h]

theorem foldl_max_le : ∀ (l : List Int) (x : Int) (k : Int), k ∈ x :: l → k ≤ l.foldl max x := by
  intro l
  induction l with
  | nil =>
    intro x k h
    simp only [List.mem_cons, List.not_mem_nil, or_false] at h
    simp [h]
  | cons y ys ih =>
    intro x k h
    simp only [List.foldl_cons]
    rcases List.mem_cons.mp h with rfl | h2
    · exact le_trans (le_max_left k y) (ih (max k y) _ (by simp))
    · rcases List.mem_cons.mp h2 with rfl | h3
      · exact le_trans (le_max_right x k) (ih (max x k) _ (by simp))
      · exact ih (max x y) k (by simp [h3])

theorem pyMaxKey_ok {β : Type} (d : List (Int × β)) (hne : d ≠ []) :
    ∃ mx, pyMaxKey d = .ok mx ∧ mx ∈ d.map Prod.fst ∧
      ∀ k ∈ d.map Prod.fst, k ≤ mx := by
  rcases hd : d.map Prod.fst with _ | ⟨k, ks⟩
  · exact absurd (List.map_eq_nil_iff.mp hd) hne
  · refine ⟨ks.foldl max k, ?_, ?_, ?_⟩
    · unfold pyMaxKey
      rw [hd]
    · exact foldl_max_mem ks k
    · intro k' hk'
      exact foldl_max_le ks k k' hk'

theorem pyMinKey_singleton {β : Type} (p : Int × β) :
    pyMinKey [p] = .ok p.1 := rfl

theorem is_sorted_append (y : Int) :
    ∀ l : List Int, is_sorted l = true → (∀ x ∈ l, x ≤ y) →
      is_sorted (l ++ [y]) = true := by
  intro l
  induction l with
  | nil => intro _ _; rfl
  | cons a rest ih =>
    intro hs hb
    cases rest with
    | nil =>
      simp only [List.cons_append, List.nil_append, is_sorted, Bool.and_eq_true,
        decide_eq_true_eq]
      exact ⟨hb a (by simp), trivial⟩
    | cons b rest' =>
      simp only [is_sorted, Bool.and_eq_true, decide_eq_true_eq] at hs
      have := ih hs.2 (fun x hx => hb x (by simp [hx]))
      simp only [List.cons_append, is_sorted, Bool.and_eq_true, decide_eq_true_eq]
      exact ⟨hs.1, by simpa using this⟩

theorem attrs_sorted (t : FrameGroupTracker) : List.Sorted (· ≤ ·) t.attrs :=
  List.sorted_insertionSort _ _

/-- The attribute lists of two trackers agree as lists as soon as they
agree as multisets, because `attrs()` is sorted. -/
theorem attrs_eq_of_perm {t t' : FrameGroupTracker}
    (h : t.attrs.Perm t'.attrs) : t.attrs = t'.attrs :=
  List.eq_of_perm_of_sorted h (attrs_sorted t) (attrs_sorted t')

/-- Success and multiset effect of the promotion loop of `combine`: if
every newly varying attribute occurs among the tracked attribute names,
the loop cannot hit its `RuntimeError` branch, and it preserves the
multiset `constants + defaults + varying-keys`. -/
theorem combine_promote_spec :
    ∀ (nv vy : List (String × Bool)) (cs ds : List String),
      (∀ kv ∈ nv, kv.1 ∈ vy.map Prod.fst ∨ kv.1 ∈ cs ∨ kv.1 ∈ ds) →
      ∃ vy' cs' ds', combine_promote nv vy cs ds = .ok (vy', cs', ds') ∧
        (cs' ++ ds' ++ vy'.map Prod.fst).Perm (cs ++ ds ++ vy.map Prod.fst) := by
  intro nv
  induction nv with
  | nil =>
    intro vy cs ds _
    exact ⟨vy, cs, ds, rfl, List.Perm.refl _⟩
  | cons kv rest ih =>
    intro vy cs ds hmem
    obtain ⟨attr, inc⟩ := kv
    by_cases hvy : (dLookup vy attr).isSome
    · obtain ⟨vy', cs', ds', hok, hperm⟩ :=
        ih vy cs ds (fun kv2 h2 => hmem kv2 (by simp [h2]))
      refine ⟨vy', cs', ds', ?_, hperm⟩
      simp only [combine_promote, if_pos hvy]
      exact hok
    · have hnone : dLookup vy attr = none := by
        rcases hl : dLookup vy attr with _ | v
        · rfl
        · rw [hl] at hvy; simp at hvy
      have hnotin : attr ∉ vy.map Prod.fst := (dLookup_eq_none vy attr).mp hnone
      have hin : attr ∈ cs ∨ attr ∈ ds := by
        rcases hmem (attr, inc) (by simp) with h | h
        · exact absurd h hnotin
        · exact h
      have hkeys : (dictSet vy attr inc).map Prod.fst = vy.map Prod.fst ++ [attr] :=
        dictSet_keys_of_not_mem vy attr inc hnotin
      have hmemstep : ∀ (cs2 ds2 : List String),
          (∀ x, x ∈ cs → x ≠ attr → x ∈ cs2) →
          (∀ x, x ∈ ds → x ≠ attr → x ∈ ds2) →
          (∀ kv2 ∈ rest, kv2.1 ∈ (dictSet vy attr inc).map Prod.fst ∨
            kv2.1 ∈ cs2 ∨ kv2.1 ∈ ds2) → True := fun _ _ _ _ _ => trivial
      by_cases hcs : attr ∈ cs
      · have hrem : removeFirst cs attr = some (cs.erase attr) := by
          rw [removeFirst_eq, if_pos hcs]
        have hrest : ∀ kv2 ∈ rest, kv2.1 ∈ (dictSet vy attr inc).map Prod.fst ∨
            kv2.1 ∈ cs.erase attr ∨ kv2.1 ∈ ds := by
          intro kv2 h2
          rcases hmem kv2 (by simp [h2]) with h | h | h
          · exact Or.inl (by rw [hkeys]; simp [h])
          · by_cases he : kv2.1 = attr
            · exact Or.inl (by rw [hkeys]; simp [he])
            · exact Or.inr (Or.inl (List.mem_erase_of_ne he |>.mpr h))
          · exact Or.inr (Or.inr h)
        obtain ⟨vy', cs', ds', hok, hperm⟩ := ih (dictSet vy attr inc) (cs.erase attr) ds hrest
        refine ⟨vy', cs', ds', ?_, ?_⟩
        · simp only [combine_promote, hvy, if_false, hrem]
          exact hok
        · refine hperm.trans ?_
          rw [hkeys]
          have h1 : cs.erase attr ++ ds ++ (vy.map Prod.fst ++ [attr]) =
              (cs.erase attr ++ ds ++ vy.map Prod.fst) ++ [attr] := by
            simp [List.append_assoc]
          rw [h1]
          refine (List.perm_append_singleton attr _).trans ?_
          show ((attr :: cs.erase attr) ++ ds ++ vy.map Prod.fst).Perm _
          exact (((List.perm_cons_erase hcs).append_right ds).append_right
            (vy.map Prod.fst)).symm
      · have hds : attr ∈ ds := hin.resolve_left hcs
        have hremc : removeFirst cs attr = none := by
          rw [removeFirst_eq, if_neg hcs]
        have hremd : removeFirst ds attr = some (ds.erase attr) := by
          rw [removeFirst_eq, if_pos hds]
        have hrest : ∀ kv2 ∈ rest, kv2.1 ∈ (dictSet vy attr inc).map Prod.fst ∨
            kv2.1 ∈ cs ∨ kv2.1 ∈ ds.erase attr := by
          intro kv2 h2
          rcases hmem kv2 (by simp [h2]) with h | h | h
          · exact Or.inl (by rw [hkeys]; simp [h])
          · exact Or.inr (Or.inl h)
          · by_cases he : kv2.1 = attr
            · exact Or.inl (by rw [hkeys]; simp [he])
            · exact Or.inr (Or.inr (List.mem_erase_of_ne he |>.mpr h))
        obtain ⟨vy', cs', ds', hok, hperm⟩ := ih (dictSet vy attr inc) cs (ds.erase attr) hrest
        refine ⟨vy', cs', ds', ?_, ?_⟩
        · simp only [combine_promote, hvy, if_false, hremc, hremd]
          exact hok
        · refine hperm.trans ?_
          rw [hkeys]
          have h1 : cs ++ ds.erase attr ++ (vy.map Prod.fst ++ [attr]) =
              (cs ++ ds.erase attr ++ vy.map Prod.fst) ++ [attr] := by
            simp [List.append_assoc]
          rw [h1]
          refine (List.perm_append_singleton attr _).trans ?_
          have h2 : ((attr :: (cs ++ ds.erase attr)) ++ vy.map Prod.fst).Perm
              ((cs ++ attr :: ds.erase attr) ++ vy.map Prod.fst) := by
            refine List.Perm.append_right (vy.map Prod.fst) ?_
            exact (List.perm_middle).symm
          refine h2.trans ?_
          exact (((List.perm_cons_erase hds).symm.append_left cs).append_right
            (vy.map Prod.fst))

/-! ### C10: the promotion RuntimeError is unreachable -/

/-- Tracker for the C10 witness: one constant attribute over frame 1. -/
def c10t : FrameGroupTracker := ⟨ "point", [(1, [("a", PyVal.vint 1)])], [], ["a"], [], none⟩

/-- Single-frame candidate for the C10 witness with a changed value. -/
def c10o : FrameGroupTracker := ⟨ "point", [(2, [("a", PyVal.vint 2)])], [], ["a"], [], none⟩

/-- C10: whenever the newly-varying diff handed to the promotion loop of
`combine` was produced by `find_varying_vals` (as it is at the only call
site), every diffed attribute name lies in `attrs()`, which is a
permutation of `constants ++ defaults ++ varying`-keys; hence the
promotion loop returns `.ok` and its "programming logic error"
`RuntimeError` branch is unreachable. -/
theorem c10_promote_no_logic_error (t other : FrameGroupTracker)
    (tf of : Int) (nv : List (String × Bool))
    (hnv : t.find_varying_vals tf other of = .ok nv) :
    ∃ vy cs ds, combine_promote nv t.varying t.constants t.defaults =
      .ok (vy, cs, ds) := by
  have hmem : ∀ kv ∈ nv, kv.1 ∈ t.varying.map Prod.fst ∨
      kv.1 ∈ t.constants ∨ kv.1 ∈ t.defaults := by
    intro kv hkv
    have h1 : kv.1 ∈ t.attrs := find_varying_vals_keys_sub hnv kv hkv
    have h2 := (attrs_perm t).mem_iff.mp h1
    simp only [List.mem_append] at h2
    tauto
  obtain ⟨vy, cs, ds, hok, _⟩ :=
    combine_promote_spec nv t.varying t.constants t.defaults hmem
  exact ⟨vy, cs, ds, hok⟩

/-- Witness for C10 at a concrete diff produced by `find_varying_vals`. -/
theorem c10_witness :
    c10t.find_varying_vals 1 c10o 2 = .ok [("a", true)] ∧
    ∃ vy cs ds, combine_promote [("a", true)] c10t.varying c10t.constants c10t.defaults =
      .ok (vy, cs, ds) :=
  ⟨by decide, c10_promote_no_logic_error c10t c10o 1 2 [("a", true)] (by decide)⟩

/-! ### C5: error behaviour of the `combine` preconditions -/

/-- Tracker for the C5 counterexample: a float-valued constant attribute. -/
def c5t : FrameGroupTracker := ⟨ "point", [(1, [("a", PyVal.vfloat 1)])], [], ["a"], [], none⟩

/-- Candidate for the C5 counterexample: the same attribute now holds a
list, so the closeness comparison is float-versus-sequence. -/
def c5o : FrameGroupTracker := ⟨ "point", [(2, [("a", PyVal.vlist [])])], [], ["a"], [], none⟩

/-- CLAIM C5 counterexample: both trackers validate, the attribute sets
agree, the candidate holds exactly one frame and its frame is strictly
greater than every frame of the tracker — all three preconditions hold —
yet `combine` raises `TypeError` (from the float-versus-list closeness
comparison inside `find_varying_vals`) instead of returning a boolean. -/
theorem c5_counterexample :
    c5t.validate = .ok () ∧ c5o.validate = .ok () ∧
    c5t.attrs = c5o.attrs ∧ c5o.frame_vals.length = 1 ∧
    (∀ f1 ∈ c5t.frames, ∀ f2 ∈ c5o.frames, f1 < f2) ∧
    c5t.combine c5o = .error (.typeError "must be real number") := by
  decide

/-- Tracker for the precondition-satisfied half of the C5 witness. -/
def c5ti : FrameGroupTracker := ⟨ "point", [(1, [("a", PyVal.vint 1)])], [], ["a"], [], none⟩

/-- Candidate for the precondition-satisfied half of the C5 witness. -/
def c5oi : FrameGroupTracker := ⟨ "point", [(2, [("a", PyVal.vint 2)])], [], ["a"], [], none⟩

/-- CLAIM C5 (amended): violating a precondition of `combine` — a
differing attribute set, a candidate holding a number of frames other
than one, or a candidate frame not strictly greater than every tracker
frame — always raises, and every non-raising call had all three
preconditions satisfied; but the converse direction of the claim fails:
satisfying all three preconditions does not guarantee a boolean return,
because the per-attribute closeness comparison may itself raise
(`c5_counterexample`). -/
theorem c5_amended :
    (∀ t other : FrameGroupTracker, t.validate = .ok () → other.validate = .ok () →
      (t.attrs ≠ other.attrs ∨ other.frame_vals.length ≠ 1 ∨
        ∃ f1 ∈ t.frames, ∃ f2 ∈ other.frames, f2 ≤ f1) →
      ∃ e, t.combine other = .error e) ∧
    (∀ (t other : FrameGroupTracker) (b : Bool) (t' : FrameGroupTracker),
      t.combine other = .ok (b, t') →
      t.attrs = other.attrs ∧ other.frame_vals.length = 1 ∧
      ∀ f1 ∈ t.frames, ∀ f2 ∈ other.frames, f1 < f2) := by
  have hok_inv : ∀ (t other : FrameGroupTracker) (b : Bool) (t' : FrameGroupTracker),
      t.combine other = .ok (b, t') →
      t.attrs = other.attrs ∧ other.frame_vals.length = 1 ∧
      ∀ f1 ∈ t.frames, ∀ f2 ∈ other.frames, f1 < f2 := by
    intro t other b t' h
    obtain ⟨hattr, hlen, mx, mn, tf, ofr, nv, hmx, hmn, hlt, -, -, -, -⟩ := combine_ok_inv h
    refine ⟨hattr, hlen, ?_⟩
    intro f1 hf1 f2 hf2
    have htne : t.frame_vals ≠ [] := by
      intro hnil
      rw [FrameGroupTracker.frames, hnil] at hf1
      simp at hf1
    obtain ⟨mx', hmx', hmem, hmax⟩ := pyMaxKey_ok t.frame_vals htne
    rw [hmx'] at hmx
    have hmxeq : mx' = mx := Except.ok.inj hmx
    obtain ⟨p, hp⟩ := List.length_eq_one.mp hlen
    have hmn2 : pyMinKey other.frame_vals = .ok p.1 := by
      rw [hp]
      exact pyMinKey_singleton p
    rw [hmn2] at hmn
    have hmneq : p.1 = mn := Except.ok.inj hmn
    have hf2eq : f2 = p.1 := by
      rw [FrameGroupTracker.frames, hp] at hf2
      simpa using hf2
    have hle1 : f1 ≤ mx' := hmax f1 hf1
    omega
  refine ⟨?_, hok_inv⟩
  intro t other hvt hvo hviol
  have hnotok : ∀ (b : Bool) (t' : FrameGroupTracker), t.combine other ≠ .ok (b, t') := by
    intro b t' h
    obtain ⟨hattr, hlen, hgt⟩ := hok_inv t other b t' h
    rcases hviol with hv | hv | hv
    · exact hv hattr
    · exact hv hlen
    · obtain ⟨f1, hf1, f2, hf2, hle⟩ := hv
      exact absurd (hgt f1 hf1 f2 hf2) (by omega)
  rcases hcomb : t.combine other with e | pair
  · exact ⟨e, rfl⟩
  · obtain ⟨b, t'⟩ := pair
    exact absurd hcomb (hnotok b t')

/-- Witness for the amended C5: a violated frame-order precondition
(merging a tracker with itself) raises, and a concrete successful merge
had all three preconditions satisfied — both via the theorem. -/
theorem c5_witness :
    (∃ e, c5t.combine c5t = .error e) ∧
    (c5ti.attrs = c5oi.attrs ∧ c5oi.frame_vals.length = 1 ∧
      ∀ f1 ∈ c5ti.frames, ∀ f2 ∈ c5oi.frames, f1 < f2) :=
  ⟨c5_amended.1 c5t c5t (by decide) (by decide)
     (Or.inr (Or.inr ⟨1, by decide, 1, by decide, by decide⟩)),
   c5_amended.2 c5ti c5oi true
     ⟨ "point", [(1, [("a", PyVal.vint 1)]), (2, [("a", PyVal.vint 2)])],
      [("a", true)], [], [], none⟩ (by decide)⟩

/-! ### C1 groundwork: frame bookkeeping of the finder loop -/

theorem exMap_forall2 {α β : Type} (f : α → Except PyErr β) :
    ∀ (l : List α) (out : List β), exMap f l = .ok out →
      List.Forall₂ (fun a b => f a = .ok b) l out := by
  intro l
  induction l with
  | nil =>
    intro out h
    simp only [exMap, Except.ok.injEq] at h
    rw [← h]
    exact List.Forall₂.nil
  | cons x xs ih =>
    intro out h
    simp only [exMap, bind, Except.bind] at h
    split at h
    · exact absurd h (by simp)
    rename_i y hy
    split at h
    · exact absurd h (by simp)
    rename_i ys hys
    rw [← Except.ok.inj h]
    exact List.Forall₂.cons hy (ih ys hys)

theorem mkChecked_singleton (light : String) (f : Int) (vals : List (String × PyVal))
    (vy : List (String × Bool)) (cs ds : List String) (t : FrameGroupTracker)
    (h : FrameGroupTracker.mkChecked light [(f, vals)] vy cs ds = .ok t) :
    ∃ vs, t.frame_vals = [(f, vs)] := by
  unfold FrameGroupTracker.mkChecked at h
  simp only [bind, Except.bind] at h
  split at h
  · exact absurd h (by simp)
  rename_i sorted hsorted
  split at h
  · exact absurd h (by simp)
  rename_i fv0 rest0
  split at h
  · exact absurd h (by simp)
  rename_i u hval
  have ht := Except.ok.inj h
  have hfs : List.insertionSort (fun a b => a.1 ≤ b.1)
      [((f : Int), vals)] = [(f, vals)] := rfl
  rw [hfs] at hsorted
  have hrel := exMap_forall2 _ _ _ hsorted
  rw [List.forall₂_cons_left_iff] at hrel
  obtain ⟨y, ys, hy, hys, heq⟩ := hrel
  cases hys
  simp only [bind, Except.bind] at hy
  split at hy
  · exact absurd hy (by simp)
  rename_i revals hrevals
  have hyv : y = (f, revals) := (Except.ok.inj hy).symm
  refine ⟨revals, ?_⟩
  rw [← ht]
  show fv0 :: rest0 = [(f, revals)]
  rw [heq, hyv]

theorem for_frame_frames (light : String) (f : Int) (vals : List (UsdAttrM × PyVal))
    (dv : List (String × PyVal)) (t : FrameGroupTracker)
    (h : FrameGroupTracker.for_frame light f vals dv = .ok t) :
    ∃ vs, t.frame_vals = [(f, vs)] := by
  unfold FrameGroupTracker.for_frame at h
  simp only [bind, Except.bind] at h
  split at h
  · exact absurd h (by simp)
  rename_i cls hcls
  exact mkChecked_singleton _ _ _ _ _ _ _ h

theorem for_frame_attrs_frames (light : String) (f : Int) (attrs : List UsdAttrM)
    (dv : List (String × PyVal)) (t : FrameGroupTracker)
    (h : FrameGroupTracker.for_frame_attrs light f attrs dv = .ok t) :
    ∃ vs, t.frame_vals = [(f, vs)] := by
  unfold FrameGroupTracker.for_frame_attrs at h
  simp only [] at h
  split at h
  · exact absurd h (by simp)
  exact for_frame_frames _ _ _ _ _ h

theorem run_frame_frames (fd : FrameGroupFinder) (f : Int) (fd' : FrameGroupFinder)
    (hstep : fd.run_frame f = .ok fd')
    (hfresh : ∀ x ∈ (fd.frame_groups.map FrameGroupTracker.frames).flatten, x < f)
    (hne : ∀ t ∈ fd.frame_groups, t.frame_vals ≠ []) :
    (fd'.frame_groups.map FrameGroupTracker.frames).flatten =
      (fd.frame_groups.map FrameGroupTracker.frames).flatten ++ [f] ∧
    (∀ t ∈ fd'.frame_groups, t.frame_vals ≠ []) := by
  unfold FrameGroupFinder.run_frame at hstep
  simp only [bind, Except.bind] at hstep
  split at hstep
  · exact absurd hstep (by simp)
  rename_i ng hng
  obtain ⟨vs, hngf⟩ := for_frame_attrs_frames _ _ _ _ _ hng
  have hngfr : ng.frames = [f] := by
    simp [FrameGroupTracker.frames, hngf]
  split at hstep
  · -- no open group: append the fresh tracker
    have hfd' := Except.ok.inj hstep
    rw [← hfd']
    constructor
    · simp [List.map_append, hngfr]
    · intro t ht
      rcases List.mem_append.mp ht with h | h
      · exact hne t h
      · rw [List.mem_singleton.mp h, hngf]
        simp
  · rename_i lg hlg
    split at hstep
    · exact absurd hstep (by simp)
    rename_i res hres
    have hlgmem : lg ∈ fd.frame_groups := List.mem_of_mem_getLast? hlg
    by_cases hb : res.1 = true
    · rw [if_pos hb] at hstep
      have hfd' := Except.ok.inj hstep
      obtain ⟨hattr, hlen, mx, mn, tf, ofr, nv, hmx, hmn, hlt, htf, hof, hnv, hcase⟩ :=
        combine_ok_inv (show lg.combine ng = .ok (res.1, res.2) from hres)
      rcases hcase with ⟨hbf, -, -⟩ | ⟨-, -, vy, cs2, ds2, -, ht2, -⟩
      · rw [hbf] at hb
        exact absurd hb (by simp)
      · -- successful merge: the last chunk grows by [f]
        have hfnot : f ∉ lg.frame_vals.map Prod.fst := by
          intro hmem
          have hx : f ∈ (fd.frame_groups.map FrameGroupTracker.frames).flatten := by
            refine List.mem_flatten.mpr ⟨lg.frames, ?_, hmem⟩
            exact List.mem_map.mpr ⟨lg, hlgmem, rfl⟩
          exact absurd (hfresh f hx) (by omega)
        have hupd : dictUpdateAll lg.frame_vals ng.frame_vals =
            dictSet lg.frame_vals f vs := by
          rw [hngf]
          rfl
        have ht2f : res.2.frames = lg.frames ++ [f] := by
          rw [ht2]
          show (dictUpdateAll lg.frame_vals ng.frame_vals).map Prod.fst = _
          rw [hupd, dictSet_keys_of_not_mem _ _ _ hfnot]
          rfl
        have hgne : fd.frame_groups ≠ [] := by
          intro hnil
          rw [hnil] at hlg
          simp at hlg
        have hlast : fd.frame_groups.getLast hgne = lg := by
          rw [List.getLast?_eq_getLast _ hgne] at hlg
          exact Option.some.inj hlg
        have hdecomp : fd.frame_groups.dropLast ++ [lg] = fd.frame_groups := by
          rw [← hlast]
          exact List.dropLast_append_getLast hgne
        rw [← hfd']
        constructor
        · show ((fd.frame_groups.dropLast ++ [res.2]).map FrameGroupTracker.frames).flatten = _
          conv_rhs => rw [← hdecomp]
          simp only [List.map_append, List.flatten_append, List.map_cons, List.map_nil,
            List.flatten_cons, List.flatten_nil, List.append_nil, ht2f]
          rw [List.append_assoc]
        · intro t ht
          rcases List.mem_append.mp ht with h | h
          · exact hne t (List.dropLast_subset _ h)
          · rw [List.mem_singleton.mp h, ht2]
            show dictUpdateAll lg.frame_vals ng.frame_vals ≠ []
            rw [hupd]
            exact dictSet_ne_nil _ _ _
    · rw [if_neg hb] at hstep
      have hfd' := Except.ok.inj hstep
      rw [← hfd']
      constructor
      · simp [List.map_append, hngfr]
      · intro t ht
        rcases List.mem_append.mp ht with h | h
        · exact hne t h
        · rw [List.mem_singleton.mp h, hngf]
          simp

theorem run_loop_frames :
    ∀ (rem : List Int) (fd fd' : FrameGroupFinder),
      exFoldl FrameGroupFinder.run_frame fd rem = .ok fd' →
      (∀ t ∈ fd.frame_groups, t.frame_vals ≠ []) →
      (∀ x ∈ (fd.frame_groups.map FrameGroupTracker.frames).flatten, ∀ y ∈ rem, x < y) →
      List.Pairwise (· < ·) rem →
      (fd'.frame_groups.map FrameGroupTracker.frames).flatten =
        (fd.frame_groups.map FrameGroupTracker.frames).flatten ++ rem ∧
      (∀ t ∈ fd'.frame_groups, t.frame_vals ≠ []) := by
  intro rem
  induction rem with
  | nil =>
    intro fd fd' h hne _ _
    have heq : fd = fd' := Except.ok.inj h
    rw [← heq]
    exact ⟨(List.append_nil _).symm, hne⟩
  | cons f rest ih =>
    intro fd fd' h hne hlt hpw
    simp only [exFoldl, bind, Except.bind] at h
    split at h
    · exact absurd h (by simp)
    rename_i fd1 hfd1
    obtain ⟨hflat1, hne1⟩ := run_frame_frames fd f fd1 hfd1
      (fun x hx => hlt x hx f (by simp)) hne
    have hlt1 : ∀ x ∈ (fd1.frame_groups.map FrameGroupTracker.frames).flatten,
        ∀ y ∈ rest, x < y := by
      intro x hx y hy
      rw [hflat1] at hx
      rcases List.mem_append.mp hx with hx | hx
      · exact hlt x hx y (by simp [hy])
      · have hxf : x = f := by simpa using hx
        rw [hxf]
        exact (List.pairwise_cons.mp hpw).1 y hy
    obtain ⟨hflat, hne'⟩ := ih fd1 fd' h hne1 hlt1 (List.pairwise_cons.mp hpw).2
    refine ⟨?_, hne'⟩
    rw [hflat, hflat1, List.append_assoc]
    rfl

theorem map_fst_getLast? {α β : Type} : ∀ (rest : List (α × β)) (fv0 : α × β),
    ((fv0 :: rest).map Prod.fst).getLast? = some (rest.getLastD fv0).1 := by
  intro rest
  induction rest with
  | nil => intro fv0; rfl
  | cons r rs ih =>
    intro fv0
    rw [List.map_cons, List.map_cons, List.getLast?_cons_cons, List.getLastD_cons]
    exact ih r

theorem to_frame_group_range (t : FrameGroupTracker) (g : FrameGroup)
    (h : t.to_frame_group = .ok g) :
    t.frames.head? = some g.frames.start ∧ t.frames.getLast? = some g.frames.stop := by
  unfold FrameGroupTracker.to_frame_group at h
  split at h
  · exact absurd h (by simp)
  rename_i fv0 rest hfv
  simp only [bind, Except.bind] at h
  repeat' (first | split at h | exact Except.noConfusion h)
  all_goals
    (have hg := Except.ok.inj h
     rw [← hg]
     refine ⟨?_, ?_⟩
     · show (t.frame_vals.map Prod.fst).head? = _
       rw [hfv]
       rfl
     · show (t.frame_vals.map Prod.fst).getLast? = _
       rw [hfv]
       exact map_fst_getLast? rest fv0)

theorem forall2_mem_right {α β : Type} {R : α → β → Prop} :
    ∀ {as : List α} {bs : List β}, List.Forall₂ R as bs → ∀ b ∈ bs, ∃ a ∈ as, R a b := by
  intro as bs h
  induction h with
  | nil =>
    intro b hb
    simp at hb
  | cons hab htail ih =>
    intro b hb
    rcases List.mem_cons.mp hb with h1 | h1
    · subst h1
      exact ⟨_, by simp, hab⟩
    · obtain ⟨a, ha, hr⟩ := ih b h1
      exact ⟨a, by simp [ha], hr⟩

theorem forall2_head {α β : Type} {R : α → β → Prop} :
    ∀ {as : List α} {bs : List β}, List.Forall₂ R as bs →
      ∀ b, bs.head? = some b → ∃ a, as.head? = some a ∧ R a b := by
  intro as bs h
  cases h with
  | nil =>
    intro b hb
    simp at hb
  | cons hab htail =>
    rename_i a0 b0 as' bs'
    intro b hb
    have hb0 : b0 = b := by simpa using hb
    exact ⟨a0, rfl, hb0 ▸ hab⟩

theorem forall2_getLast {α β : Type} {R : α → β → Prop} :
    ∀ {as : List α} {bs : List β}, List.Forall₂ R as bs →
      ∀ a, as.getLast? = some a → ∃ b, bs.getLast? = some b ∧ R a b := by
  intro as bs h
  induction h with
  | nil =>
    intro a ha
    simp at ha
  | cons hab htail ih =>
    rename_i a0 b0 as' bs'
    intro a ha
    cases htail with
    | nil =>
      have ha0 : a0 = a := by simpa using ha
      exact ⟨b0, by simp, ha0 ▸ hab⟩
    | cons hab2 htail2 =>
      rw [List.getLast?_cons_cons] at ha
      obtain ⟨b, hb, hr⟩ := ih a ha
      rw [List.getLast?_cons_cons]
      exact ⟨b, hb, hr⟩

theorem forall2_pairwise {α β : Type} {R : α → β → Prop} {S : α → α → Prop}
    {T : β → β → Prop}
    (hcompat : ∀ a b a' b', R a b → R a' b' → S a a' → T b b') :
    ∀ {as : List α} {bs : List β}, List.Forall₂ R as bs →
      List.Pairwise S as → List.Pairwise T bs := by
  intro as bs h
  induction h with
  | nil =>
    intro _
    exact List.Pairwise.nil
  | cons hab htail ih =>
    rename_i a0 b0 as' bs'
    intro hpw
    rw [List.pairwise_cons] at hpw ⊢
    refine ⟨?_, ih hpw.2⟩
    intro b' hb'
    obtain ⟨a', ha', hr'⟩ := forall2_mem_right htail b' hb'
    exact hcompat a0 b0 a' b' hab hr' (hpw.1 a' ha')

theorem head_le_of_sorted {ck : List Int} (hpw : ck.Pairwise (· < ·)) {a : Int}
    (ha : ck.head? = some a) : ∀ f ∈ ck, a ≤ f := by
  cases ck with
  | nil => simp at ha
  | cons x tl =>
    have hx : x = a := by simpa using ha
    subst hx
    intro f hf
    rcases List.mem_cons.mp hf with h | h
    · rw [h]
    · exact le_of_lt ((List.pairwise_cons.mp hpw).1 f h)

theorem le_getLast_of_sorted : ∀ {ck : List Int}, ck.Pairwise (· < ·) → ∀ {b : Int},
    ck.getLast? = some b → ∀ f ∈ ck, f ≤ b := by
  intro ck
  induction ck with
  | nil =>
    intro _ b hb
    simp at hb
  | cons x tl ih =>
    intro hpw b hb f hf
    cases tl with
    | nil =>
      have hxb : x = b := by simpa using hb
      have hfx : f = x := by simpa using hf
      rw [hfx, hxb]
    | cons y ys =>
      rw [List.getLast?_cons_cons] at hb
      rcases List.mem_cons.mp hf with h | h
      · have hbmem : b ∈ y :: ys := List.mem_of_mem_getLast? hb
        have hxlt : x < b := (List.pairwise_cons.mp hpw).1 b hbmem
        rw [h]
        exact le_of_lt hxlt
      · exact ih (List.pairwise_cons.mp hpw).2 hb f h

theorem flatten_getLast? : ∀ (cks : List (List Int)), (∀ ck ∈ cks, ck ≠ []) → cks ≠ [] →
    ∃ ckn, cks.getLast? = some ckn ∧ cks.flatten.getLast? = ckn.getLast? := by
  intro cks
  induction cks with
  | nil =>
    intro _ h
    exact absurd rfl h
  | cons ck rest ih =>
    intro hne _
    cases rest with
    | nil =>
      refine ⟨ck, rfl, ?_⟩
      simp
    | cons ck2 rest2 =>
      obtain ⟨ckn, h1, h2⟩ := ih (fun c hc => hne c (by simp [hc])) (by simp)
      have hflatne : (ck2 :: rest2).flatten ≠ [] := by
        intro hnil
        rw [List.flatten_cons] at hnil
        exact (hne ck2 (by simp)) (List.append_eq_nil.mp hnil).1
      refine ⟨ckn, ?_, ?_⟩
      · rw [List.getLast?_cons_cons]
        exact h1
      · rw [List.flatten_cons, List.getLast?_append_of_ne_nil _ hflatne]
        exact h2

theorem chunks_chain_adj :
    ∀ (cks : List (List Int)) (gs : List FrameGroup) (pre : List Int),
      List.Forall₂ (fun ck g => ck.head? = some g.frames.start ∧
        ck.getLast? = some g.frames.stop) cks gs →
      List.Chain' (fun g1 g2 => ∃ l1 l2,
        pre ++ cks.flatten = l1 ++ g1.frames.stop :: g2.frames.start :: l2) gs := by
  intro cks
  induction cks with
  | nil =>
    intro gs pre h
    cases h
    exact List.chain'_nil
  | cons ck rest ih =>
    intro gs pre h
    cases h with
    | cons hg htail =>
      rename_i g gs'
      rw [List.chain'_cons']
      constructor
      · intro g2 hg2
        obtain ⟨ck2, hck2h, hR2⟩ := forall2_head htail g2 hg2
        obtain ⟨hckh, hckl⟩ := hg
        have hckne : ck ≠ [] := by
          intro h0
          rw [h0] at hckh
          simp at hckh
        have hckdec : ck.dropLast ++ [g.frames.stop] = ck := by
          have h1 : ck.getLast hckne = g.frames.stop := by
            rw [List.getLast?_eq_getLast _ hckne] at hckl
            exact Option.some.inj hckl
          rw [← h1]
          exact List.dropLast_append_getLast hckne
        obtain ⟨hck2head, hck2last⟩ := hR2
        have hck2dec : g2.frames.start :: ck2.tail = ck2 := by
          cases ck2 with
          | nil => simp at hck2head
          | cons z zs =>
            have hz : z = g2.frames.start := by simpa using hck2head
            simp [hz]
        have hrestdec : ck2 :: rest.tail = rest := by
          cases rest with
          | nil => simp at hck2h
          | cons r rs =>
            have hr : r = ck2 := by simpa using hck2h
            simp [hr]
        refine ⟨pre ++ ck.dropLast, ck2.tail ++ rest.tail.flatten, ?_⟩
        rw [List.flatten_cons]
        conv_lhs => rw [← hckdec, ← hrestdec, List.flatten_cons, ← hck2dec]
        simp [List.append_assoc]
      · have hchain := ih gs' (pre ++ ck) htail
        rw [List.flatten_cons]
        simp only [← List.append_assoc]
        exact hchain

theorem forall2_mem_left {α β : Type} {R : α → β → Prop} :
    ∀ {as : List α} {bs : List β}, List.Forall₂ R as bs → ∀ a ∈ as, ∃ b ∈ bs, R a b := by
  intro as bs h
  induction h with
  | nil =>
    intro a ha
    simp at ha
  | cons hab htail ih =>
    intro a ha
    rcases List.mem_cons.mp ha with h1 | h1
    · subst h1
      exact ⟨_, by simp, hab⟩
    · obtain ⟨b, hb, hr⟩ := ih a h1
      exact ⟨b, by simp [hb], hr⟩

theorem chunks_tiling (frames : List Int) (cks : List (List Int)) (gs : List FrameGroup)
    (hflat : cks.flatten = frames)
    (hrel : List.Forall₂ (fun ck g => ck.head? = some g.frames.start ∧
      ck.getLast? = some g.frames.stop) cks gs)
    (hpw : frames.Pairwise (· < ·))
    (hne : frames ≠ []) :
    gs ≠ [] ∧
    gs.head?.map (fun g => g.frames.start) = frames.head? ∧
    gs.getLast?.map (fun g => g.frames.stop) = frames.getLast? ∧
    List.Chain' (fun g1 g2 => ∃ l1 l2,
      frames = l1 ++ g1.frames.stop :: g2.frames.start :: l2) gs ∧
    (∀ f ∈ frames, ∃ g ∈ gs, g.frames.start ≤ f ∧ f ≤ g.frames.stop) ∧
    List.Pairwise (fun g1 g2 => ∀ f : Int,
      ¬((g1.frames.start ≤ f ∧ f ≤ g1.frames.stop) ∧
        (g2.frames.start ≤ f ∧ f ≤ g2.frames.stop))) gs := by
  have hpw' : cks.flatten.Pairwise (· < ·) := by
    rw [hflat]
    exact hpw
  have hcknonempty : ∀ ck ∈ cks, ck ≠ [] := by
    intro ck hck
    obtain ⟨g, hgmem, hgr⟩ := forall2_mem_left hrel ck hck
    intro h0
    rw [h0] at hgr
    simp at hgr
  have hcksne : cks ≠ [] := by
    intro h0
    exact hne (by rw [← hflat, h0]; rfl)
  refine ⟨?_, ?_, ?_, ?_, ?_, ?_⟩
  · -- groups nonempty
    intro h0
    subst h0
    cases hrel
    exact hcksne rfl
  · -- first group starts at the first frame
    rcases gs with _ | ⟨g0, gs'⟩
    · cases hrel
      exact absurd rfl hcksne
    · cases hrel with
      | cons hg0 htail =>
        rename_i ck0 cks'
        obtain ⟨hh0, hl0⟩ := hg0
        rcases ck0 with _ | ⟨s, tl⟩
        · simp at hh0
        · have hs : s = g0.frames.start := by simpa using hh0
          rw [← hflat, List.flatten_cons]
          simp [hs]
  · -- last group stops at the last frame
    obtain ⟨ckn, hckn, hfl⟩ := flatten_getLast? cks hcknonempty hcksne
    obtain ⟨gn, hgn, hrn⟩ := forall2_getLast hrel ckn hckn
    rw [hgn, ← hflat, hfl, hrn.2]
    rfl
  · -- each group starts right after its predecessor stops
    have hchain := chunks_chain_adj cks gs [] hrel
    simp only [List.nil_append, hflat] at hchain
    exact hchain
  · -- every frame is covered
    intro f hf
    rw [← hflat] at hf
    obtain ⟨ck, hckmem, hfck⟩ := List.mem_flatten.mp hf
    obtain ⟨g, hgmem, hgr⟩ := forall2_mem_left hrel ck hckmem
    have hinf : ck <:+: cks.flatten := List.infix_of_mem_flatten hckmem
    have hckpw : ck.Pairwise (· < ·) := hpw'.sublist hinf.sublist
    exact ⟨g, hgmem, head_le_of_sorted hckpw hgr.1 f hfck,
      le_getLast_of_sorted hckpw hgr.2 f hfck⟩
  · -- no frame is covered by two groups
    have hckspw := (List.pairwise_flatten.mp hpw').2
    refine forall2_pairwise ?_ hrel hckspw
    intro ck1 g1 ck2 g2 hr1 hr2 hS f hcover
    have hstop : g1.frames.stop ∈ ck1 := List.mem_of_mem_getLast? hr1.2
    have hstart : g2.frames.start ∈ ck2 := List.mem_of_mem_head? hr2.1
    have hlt := hS _ hstop _ hstart
    obtain ⟨⟨h1s, h1e⟩, h2s, h2e⟩ := hcover
    omega

/-- CLAIM C1: for a non-empty strictly ascending frame list, the groups
returned by `FrameGroupFinder.find` tile the input frames exactly and in
order: the group list is non-empty, the first group starts at the first
input frame, the last group ends at the last input frame, each later
group starts at the input frame immediately following the previous
group's end, every input frame is covered by some group, and no frame is
covered by two groups. -/
theorem c1_find_tiles (light : String) (all_attrs : List UsdAttrM)
    (all_frames : List Int) (gs : List FrameGroup)
    (hne : all_frames ≠ [])
    (hasc : List.Chain' (· < ·) all_frames)
    (hfind : FrameGroupFinder.find light all_attrs all_frames = .ok gs) :
    gs ≠ [] ∧
    gs.head?.map (fun g => g.frames.start) = all_frames.head? ∧
    gs.getLast?.map (fun g => g.frames.stop) = all_frames.getLast? ∧
    List.Chain' (fun g1 g2 => ∃ l1 l2,
      all_frames = l1 ++ g1.frames.stop :: g2.frames.start :: l2) gs ∧
    (∀ f ∈ all_frames, ∃ g ∈ gs, g.frames.start ≤ f ∧ f ≤ g.frames.stop) ∧
    List.Pairwise (fun g1 g2 => ∀ f : Int,
      ¬((g1.frames.start ≤ f ∧ f ≤ g1.frames.stop) ∧
        (g2.frames.start ≤ f ∧ f ≤ g2.frames.stop))) gs := by
  unfold FrameGroupFinder.find at hfind
  simp only [bind, Except.bind] at hfind
  split at hfind
  · exact absurd hfind (by simp)
  rename_i fd' hrun
  have hpw : all_frames.Pairwise (· < ·) := List.chain'_iff_pairwise.mp hasc
  unfold FrameGroupFinder.run at hrun
  obtain ⟨hflat, hnet⟩ := run_loop_frames all_frames ⟨light, all_attrs, all_frames, []⟩ fd'
    hrun (by simp) (by simp) hpw
  simp only [List.map_nil, List.flatten_nil, List.nil_append] at hflat
  have hrel0 := exMap_forall2 _ _ _ hfind
  have hrel : List.Forall₂ (fun ck (g : FrameGroup) => ck.head? = some g.frames.start ∧
      ck.getLast? = some g.frames.stop) (fd'.frame_groups.map FrameGroupTracker.frames) gs := by
    rw [List.forall₂_map_left_iff]
    exact List.Forall₂.imp (fun t g h => to_frame_group_range t g h) hrel0
  exact chunks_tiling all_frames _ gs hflat hrel hpw hne

/-- The constant attribute of the C1 witness scenario. -/
def c1attr : UsdAttrM := ⟨ "a", fun _ => .vint 5, .vint 0⟩

/-- Witness for C1: on frames `[1, 2]` with one constant attribute the
finder returns the single-frame groups `[1, 1]` and `[2, 2]`, and the
tiling properties hold for them via the theorem. -/
theorem c1_witness :
    ([⟨⟨1, 1⟩, [], [( "a", .vint 5)]⟩, ⟨⟨2, 2⟩, [], [( "a", .vint 5)]⟩] :
      List FrameGroup) ≠ [] ∧
    ([⟨⟨1, 1⟩, [], [( "a", .vint 5)]⟩, ⟨⟨2, 2⟩, [], [( "a", .vint 5)]⟩] :
        List FrameGroup).head?.map (fun g => g.frames.start) = ([1, 2] : List Int).head? ∧
    ([⟨⟨1, 1⟩, [], [( "a", .vint 5)]⟩, ⟨⟨2, 2⟩, [], [( "a", .vint 5)]⟩] :
        List FrameGroup).getLast?.map (fun g => g.frames.stop) = ([1, 2] : List Int).getLast? ∧
    List.Chain' (fun g1 g2 => ∃ l1 l2,
      ([1, 2] : List Int) = l1 ++ g1.frames.stop :: g2.frames.start :: l2)
      ([⟨⟨1, 1⟩, [], [( "a", .vint 5)]⟩, ⟨⟨2, 2⟩, [], [( "a", .vint 5)]⟩] :
        List FrameGroup) ∧
    (∀ f ∈ ([1, 2] : List Int), ∃ g ∈ ([⟨⟨1, 1⟩, [], [( "a", .vint 5)]⟩,
      ⟨⟨2, 2⟩, [], [( "a", .vint 5)]⟩] : List FrameGroup),
      g.frames.start ≤ f ∧ f ≤ g.frames.stop) ∧
    List.Pairwise (fun g1 g2 => ∀ f : Int,
      ¬((g1.frames.start ≤ f ∧ f ≤ g1.frames.stop) ∧
        (g2.frames.start ≤ f ∧ f ≤ g2.frames.stop)))
      ([⟨⟨1, 1⟩, [], [( "a", .vint 5)]⟩, ⟨⟨2, 2⟩, [], [( "a", .vint 5)]⟩] :
        List FrameGroup) :=
  c1_find_tiles "point" [c1attr] [1, 2]
    [⟨⟨1, 1⟩, [], [( "a", .vint 5)]⟩, ⟨⟨2, 2⟩, [], [( "a", .vint 5)]⟩]
    (by decide) (by simp [List.chain'_cons, List.chain'_singleton]) (by decide)
